import Mathlib

/-!
Verification of the element-level numerical core of the nalu-wind repository.

The development shallowly embeds, over a general linear ordered field `F`
(idealizing the C++ `double` arithmetic; all witnesses instantiate `F := ℚ`):

* the polynomial helper functions `poly_val`, `poly_der`, `poly_int` of
  `unit_tests/UnitTestHOMasterElements.C`;
* the batched lane-processing step of
  `src/AssembleElemSolverAlgorithm.C` (lane extraction, diagonal
  relaxation, the pair handed to the scatter `apply_coeff`);
* models of the higher-order element components whose sources are not in
  the repository snapshot (`LagrangeBasis`, `TensorProductQuadratureRule`,
  `MasterElementHO`, `ElementDescription`); those definitions carry a
  `Modelled from the spec:` doc comment and follow the specification text.
-/

namespace NaluCore

open Polynomial

variable {F : Type} [LinearOrderedField F]

/-! ## Polynomial helpers from `unit_tests/UnitTestHOMasterElements.C` -/

/-- Source `poly_val`: value of the polynomial with coefficient list
`coeffs` (coefficient of `x^j` at position `j`) at `x`. -/
def poly_val (coeffs : List F) (x : F) : F :=
  ∑ j ∈ Finset.range coeffs.length, coeffs.getD j 0 * x ^ j

/-- Source `poly_der`: derivative of the polynomial with coefficient list
`coeffs` at `x` (the loop starts at `j = 1`). -/
def poly_der (coeffs : List F) (x : F) : F :=
  ∑ j ∈ Finset.Ico 1 coeffs.length, coeffs.getD j 0 * x ^ (j - 1) * (j : F)

/-- Source `poly_int`: the closed-form integral of the polynomial with
coefficient list `coeffs` from `xlower` to `xupper`, computed as the
difference of the antiderivative values, exactly as in the source. -/
def poly_int (coeffs : List F) (xlower xupper : F) : F :=
  (∑ j ∈ Finset.range coeffs.length, coeffs.getD j 0 * xupper ^ (j + 1) / ((j : F) + 1)) -
  (∑ j ∈ Finset.range coeffs.length, coeffs.getD j 0 * xlower ^ (j + 1) / ((j : F) + 1))

/-- The formal polynomial carried by a coefficient list; proof-side bridge
between the source coefficient lists and `Polynomial F`. -/
noncomputable def ofCoeffs (coeffs : List F) : Polynomial F :=
  ∑ j ∈ Finset.range coeffs.length, Polynomial.C (coeffs.getD j 0) * Polynomial.X ^ j

/-- Formal antiderivative (zero constant term) of a polynomial. -/
noncomputable def antideriv (p : Polynomial F) : Polynomial F :=
  p.sum fun n a => Polynomial.C (a / ((n : F) + 1)) * Polynomial.X ^ (n + 1)

/-- The (exact) integral of a polynomial over `[a, b]`, via the formal
antiderivative. -/
noncomputable def intPoly (p : Polynomial F) (a b : F) : F :=
  (antideriv p).eval b - (antideriv p).eval a

/-- Modelled from the spec: `TensorProductQuadratureRule` (its source is not
in the snapshot) provides a 1-D rule with abscissae `xq` and weights `wq`
that integrates every polynomial of degree at most `d` exactly over
`[-1, 1]` (Gauss-Legendre exactness, spec section 4.3). -/
def GaussExact (nq : ℕ) (xq wq : Fin nq → F) (d : ℕ) : Prop :=
  ∀ p : Polynomial F, p.natDegree ≤ d → ∑ q, wq q * p.eval (xq q) = intPoly p (-1) 1

/-! ## Lagrange basis model

Modelled from the spec: `LagrangeBasis.C` is not in the snapshot; per spec
section 4.2 the basis is the nodal 1-D Lagrange interpolation basis,
tensor-producted across dimensions, and the derivative weights apply the
1-D Lagrange derivative through the product rule. -/

/-- Modelled from the spec: the 1-D Lagrange cardinal function for node `i`
of the node set `v`, evaluated at `x`. -/
def lagrange1D {m : ℕ} (v : Fin m → F) (i : Fin m) (x : F) : F :=
  ∏ j ∈ Finset.univ.erase i, (x - v j) / (v i - v j)

/-- Modelled from the spec: the derivative of the 1-D Lagrange cardinal
function for node `i`, by the product rule. -/
def lagrange1Dd {m : ℕ} (v : Fin m → F) (i : Fin m) (x : F) : F :=
  ∑ k ∈ Finset.univ.erase i,
    (∏ j ∈ (Finset.univ.erase i).erase k, (x - v j)) / ∏ j ∈ Finset.univ.erase i, (v i - v j)

/-- Tensor-product node index sets. -/
abbrev N2 (m : ℕ) := Fin m × Fin m

abbrev N3 (m : ℕ) := Fin m × Fin m × Fin m

/-- Modelled from the spec: one entry of the `eval_basis_weights` matrix in
two dimensions — the interpolation weight of tensor node `n` at the
evaluation point `(x, y)`. -/
def basisWeight2 {m : ℕ} (v : Fin m → F) (x y : F) (n : N2 m) : F :=
  lagrange1D v n.1 x * lagrange1D v n.2 y

/-- Modelled from the spec: one entry of the `eval_deriv_weights` tensor in
two dimensions — the `d`-direction derivative weight of tensor node `n` at
the evaluation point `(x, y)`. -/
def derivWeight2 {m : ℕ} (v : Fin m → F) (x y : F) (n : N2 m) (d : Fin 2) : F :=
  if d = 0 then lagrange1Dd v n.1 x * lagrange1D v n.2 y
  else lagrange1D v n.1 x * lagrange1Dd v n.2 y

/-- Modelled from the spec: one entry of the `eval_basis_weights` matrix in
three dimensions, the point given as a function `Fin 3 → F`. -/
def basisWeight3 {m : ℕ} (v : Fin m → F) (p : Fin 3 → F) (n : N3 m) : F :=
  lagrange1D v n.1 (p 0) * lagrange1D v n.2.1 (p 1) * lagrange1D v n.2.2 (p 2)

/-- Modelled from the spec: one entry of the `eval_deriv_weights` tensor in
three dimensions. -/
def derivWeight3 {m : ℕ} (v : Fin m → F) (p : Fin 3 → F) (n : N3 m) (d : Fin 3) : F :=
  if d = 0 then lagrange1Dd v n.1 (p 0) * lagrange1D v n.2.1 (p 1) * lagrange1D v n.2.2 (p 2)
  else if d = 1 then lagrange1D v n.1 (p 0) * lagrange1Dd v n.2.1 (p 1) * lagrange1D v n.2.2 (p 2)
  else lagrange1D v n.1 (p 0) * lagrange1D v n.2.1 (p 1) * lagrange1Dd v n.2.2 (p 2)

/-! ## `AssembleElemSolverAlgorithm` (from `src/AssembleElemSolverAlgorithm.C`) -/

/-- `rhsSize_ = nodesPerEntity * eqSystem->linsys_->numDof()` (constructor,
line 60). -/
def rhsSize (nodesPerEntity numDof : ℕ) : ℕ := nodesPerEntity * numDof

/-- Modelled from the spec: the header declaring the `diagRelaxFactor_`
member (with its in-class initializer) is not in the snapshot; per spec
section 6, 1.0 means no relaxation, and the pressure equation uses no
relaxation, so the untouched default is 1. -/
def diagRelaxFactorDefault : F := 1

/-- Constructor lines 63-66: the relaxation factor is looked up from the
solution options only when the degree-of-freedom name differs from
"pressure"; otherwise the member keeps its default. -/
def diagRelaxFactor (dofName : String) (get_relaxation_factor : String → F) : F :=
  if dofName ≠ ("pressure") then get_relaxation_factor dofName else diagRelaxFactorDefault

/-- `extract_vector_lane` (execute, line 99): de-interleave one SIMD lane of
a batched vector. -/
def extract_vector_lane {n L : ℕ} (simd : Fin n → Fin L → F) (lane : Fin L) : Fin n → F :=
  fun i => simd i lane

/-- `extract_vector_lane` applied to the batched LHS (execute, line 100):
de-interleave one SIMD lane of a batched matrix. -/
def extract_matrix_lane {n L : ℕ} (simd : Fin n → Fin n → Fin L → F) (lane : Fin L) :
    Fin n → Fin n → F :=
  fun i j => simd i j lane

/-- One step of the relaxation loop body `smdata.lhs(ir, ir) /= diagRelaxFactor_`
(execute, lines 101-102). -/
def relaxDiagEntry {R : ℕ} (factor : F) (ir : Fin R) (lhs : Fin R → Fin R → F) :
    Fin R → Fin R → F :=
  fun i j => if i = ir ∧ j = ir then lhs i j / factor else lhs i j

/-- The relaxation loop over a list of row indices. -/
def relaxDiagLoop {R : ℕ} (factor : F) : List (Fin R) → (Fin R → Fin R → F) →
    (Fin R → Fin R → F)
  | [], lhs => lhs
  | ir :: rest, lhs => relaxDiagLoop factor rest (relaxDiagEntry factor ir lhs)

/-- The full relaxation loop `for (ir = 0; ir < rhsSize_; ++ir)` of execute,
lines 101-102. -/
def applyDiagRelax {R : ℕ} (factor : F) (lhs : Fin R → Fin R → F) : Fin R → Fin R → F :=
  relaxDiagLoop factor (List.finRange R) lhs

/-- Lane processing in execute, lines 98-104: extract the lane's RHS and LHS
from the batched representation, relax the LHS diagonal, and form the pair
handed to the scatter `apply_coeff`. -/
def laneProcess {R L : ℕ} (simdlhs : Fin R → Fin R → Fin L → F) (simdrhs : Fin R → Fin L → F)
    (lane : Fin L) (factor : F) : (Fin R → Fin R → F) × (Fin R → F) :=
  (applyDiagRelax factor (extract_matrix_lane simdlhs lane), extract_vector_lane simdrhs lane)

/-! ## Sub-control-volume quadrature model

Modelled from the spec: `MasterElementHO.C` and `QuadratureRule.C` are not
in the snapshot. Per spec sections 2, 3 and 4.3-4.4, the SCV master element
places, inside the sub-control volume of each tensor node, the tensor
product of the 1-D quadrature abscissae mapped affinely into the 1-D
sub-control-volume interval given by consecutive `scs_end_loc()` entries;
its `ip_weights()` are the corresponding products of mapped 1-D weights,
`ipNodeMap()` sends each integration point to its home node, and
`shape_functions()` are the Lagrange interpolation weights at those
integration points. -/

/-- Midpoint of the `i`-th 1-D sub-control volume `[e i, e (i+1)]`. -/
def scvMid {m : ℕ} (e : Fin (m + 1) → F) (i : Fin m) : F :=
  (e i.castSucc + e i.succ) / 2

/-- Half-width of the `i`-th 1-D sub-control volume. -/
def scvHalf {m : ℕ} (e : Fin (m + 1) → F) (i : Fin m) : F :=
  (e i.succ - e i.castSucc) / 2

/-- Interpolation of a nodal field at a point, two dimensions (the inner
loop of `check_volume_quadrature_quad`, lines 430-436). -/
def scvInterp2 {m : ℕ} (v : Fin m → F) (x y : F) (nodal : N2 m → F) : F :=
  ∑ n, basisWeight2 v x y n * nodal n

/-- Interpolation of a nodal field at a point, three dimensions. -/
def scvInterp3 {m : ℕ} (v : Fin m → F) (p : Fin 3 → F) (nodal : N3 m → F) : F :=
  ∑ n, basisWeight3 v p n * nodal n

/-- The quadrilateral SCV accumulation of `check_volume_quadrature_quad`:
every integration point (home node `ip.1`, per-axis quadrature indices
`ip.2`) contributes its `ip_weights()` entry times the interpolated field
value to the node `ipNodeMap()[ip] = ip.1`. -/
def scvAccum2 {m nq : ℕ} (v : Fin m → F) (e : Fin (m + 1) → F) (xq wq : Fin nq → F)
    (nodal : N2 m → F) (n : N2 m) : F :=
  ∑ ip : N2 m × (Fin nq × Fin nq),
    if ip.1 = n then
      ((wq ip.2.1 * scvHalf e ip.1.1) * (wq ip.2.2 * scvHalf e ip.1.2)) *
        scvInterp2 v (scvMid e ip.1.1 + scvHalf e ip.1.1 * xq ip.2.1)
          (scvMid e ip.1.2 + scvHalf e ip.1.2 * xq ip.2.2) nodal
    else 0

/-- The hexahedral SCV accumulation of `check_volume_quadrature_hex`. -/
def scvAccum3 {m nq : ℕ} (v : Fin m → F) (e : Fin (m + 1) → F) (xq wq : Fin nq → F)
    (nodal : N3 m → F) (n : N3 m) : F :=
  ∑ ip : N3 m × (Fin nq × Fin nq × Fin nq),
    if ip.1 = n then
      ((wq ip.2.1 * scvHalf e ip.1.1) * ((wq ip.2.2.1 * scvHalf e ip.1.2.1) *
          (wq ip.2.2.2 * scvHalf e ip.1.2.2))) *
        scvInterp3 v
          ![scvMid e ip.1.1 + scvHalf e ip.1.1 * xq ip.2.1,
            scvMid e ip.1.2.1 + scvHalf e ip.1.2.1 * xq ip.2.2.1,
            scvMid e ip.1.2.2 + scvHalf e ip.1.2.2 * xq ip.2.2.2] nodal
    else 0

/-! ## Master element point location, interpolation and gradient model

Modelled from the spec: `MasterElementHO.C` is not in the snapshot. Per
spec section 4.4, `isInElement` runs a Newton iteration on the nonlinear
reference-to-physical map with a bounded iteration count and returns a
scalar parametric distance (at most 1, up to tolerance, means inside);
`interpolatePoint` evaluates the Lagrange basis at an arbitrary reference
coordinate and applies it to nodal data; `grad_op` computes the
physical-space gradient operator through the Jacobian by the chain rule,
writes the Jacobian determinant per integration point and accumulates a
non-fatal error count for non-positive determinants. -/

/-- The reference nodal coordinates of the hexahedral element: tensor node
`(i, j, k)` sits at `(v i, v j, v k)`. -/
def refCoords3 {m : ℕ} (v : Fin m → F) : N3 m → Fin 3 → F :=
  fun n d => if d = 0 then v n.1 else if d = 1 then v n.2.1 else v n.2.2

/-- The reference-to-physical map of the element with nodal coordinates
`coords`: component `a` at reference point `ξ`. -/
def geom3 {m : ℕ} (v : Fin m → F) (coords : N3 m → Fin 3 → F) (ξ : Fin 3 → F) (a : Fin 3) : F :=
  ∑ n, basisWeight3 v ξ n * coords n a

/-- The Jacobian of the reference-to-physical map: `jac3 v coords ξ a c` is
the derivative of physical component `a` with respect to reference
component `c`. -/
def jac3 {m : ℕ} (v : Fin m → F) (coords : N3 m → Fin 3 → F) (ξ : Fin 3 → F)
    (a c : Fin 3) : F :=
  ∑ n, derivWeight3 v ξ n c * coords n a

/-- Determinant of a 3×3 matrix given as a function, by cofactor expansion
along the first row. -/
def det3 (J : Fin 3 → Fin 3 → F) : F :=
  J 0 0 * (J 1 1 * J 2 2 - J 1 2 * J 2 1) -
  J 0 1 * (J 1 0 * J 2 2 - J 1 2 * J 2 0) +
  J 0 2 * (J 1 0 * J 2 1 - J 1 1 * J 2 0)

/-- Solve the 3×3 linear system `J s = r` by Cramer's rule (the component
`d` of the solution). -/
def solve3 (J : Fin 3 → Fin 3 → F) (r : Fin 3 → F) (d : Fin 3) : F :=
  (if d = 0 then
    r 0 * (J 1 1 * J 2 2 - J 1 2 * J 2 1) -
    J 0 1 * (r 1 * J 2 2 - J 1 2 * r 2) +
    J 0 2 * (r 1 * J 2 1 - J 1 1 * r 2)
  else if d = 1 then
    J 0 0 * (r 1 * J 2 2 - J 1 2 * r 2) -
    r 0 * (J 1 0 * J 2 2 - J 1 2 * J 2 0) +
    J 0 2 * (J 1 0 * r 2 - r 1 * J 2 0)
  else
    J 0 0 * (J 1 1 * r 2 - r 1 * J 2 1) -
    J 0 1 * (J 1 0 * r 2 - r 1 * J 2 0) +
    r 0 * (J 1 0 * J 2 1 - J 1 1 * J 2 0)) / det3 J

/-- One Newton step for the point-location problem: subtract the Jacobian
solve of the current residual. -/
def newtonStep3 {m : ℕ} (v : Fin m → F) (coords : N3 m → Fin 3 → F) (pt : Fin 3 → F)
    (ξ : Fin 3 → F) : Fin 3 → F :=
  fun d => ξ d - solve3 (jac3 v coords ξ) (fun a => geom3 v coords ξ a - pt a) d

/-- The Newton iteration with fuel, started at the element center. -/
def newtonIterate3 {m : ℕ} (v : Fin m → F) (coords : N3 m → Fin 3 → F) (pt : Fin 3 → F) :
    ℕ → Fin 3 → F
  | 0 => fun _ => 0
  | fuel + 1 => newtonStep3 v coords pt (newtonIterate3 v coords pt fuel)

/-- Modelled from the spec: the fixed maximum Newton iteration count. -/
def maxNewtonIter : ℕ := 20

/-- The scalar parametric distance of a recovered reference coordinate: the
largest component magnitude, so that distance at most 1 means the point is
inside the reference element `[-1, 1]^3`. -/
def parametricDistance3 (ξ : Fin 3 → F) : F :=
  max (|ξ 0|) (max (|ξ 1|) (|ξ 2|))

/-- `isInElement` for the hexahedral master element: run the bounded Newton
iteration, return the parametric distance and the recovered reference
coordinate. -/
def isInElement {m : ℕ} (v : Fin m → F) (coords : N3 m → Fin 3 → F) (pt : Fin 3 → F) :
    F × (Fin 3 → F) :=
  (parametricDistance3 (newtonIterate3 v coords pt maxNewtonIter),
    newtonIterate3 v coords pt maxNewtonIter)

/-- `interpolatePoint` (one component): evaluate the Lagrange basis at the
reference coordinate `ξ` and apply it to the nodal data `field`. -/
def interpolatePoint {m : ℕ} (v : Fin m → F) (ξ : Fin 3 → F) (field : N3 m → F) : F :=
  ∑ n, basisWeight3 v ξ n * field n

/-- The gradient-operator entry at one integration point: physical-space
gradient component `d` of the shape function of node `n`, by the chain rule
through the (transposed) Jacobian. -/
def gradOpAt {m : ℕ} (v : Fin m → F) (coords : N3 m → Fin 3 → F) (ξ : Fin 3 → F)
    (n : N3 m) (d : Fin 3) : F :=
  solve3 (fun a c => jac3 v coords ξ c a) (fun c => derivWeight3 v ξ n c) d

/-- `grad_op` over a fixed set of integration points for one element:
returns the gradient-operator table, the Jacobian determinant per
integration point, and the accumulated count of integration points with
non-positive determinant (the non-fatal `errorOut`). All outputs are
written regardless of the error count. -/
def grad_op {m nip : ℕ} (v : Fin m → F) (ips : Fin nip → Fin 3 → F)
    (coords : N3 m → Fin 3 → F) :
    (Fin nip → N3 m → Fin 3 → F) × (Fin nip → F) × ℕ :=
  (fun ip => gradOpAt v coords (ips ip),
   fun ip => det3 (jac3 v coords (ips ip)),
   (Finset.univ.filter fun ip : Fin nip => det3 (jac3 v coords (ips ip)) ≤ 0).card)

/-! ## `ElementDescription` model -/

/-- The error raised by `ElementDescription::create` on a bad dimension or
polynomial order. -/
inductive ElementDescErr where
  | InvalidOrderError : ElementDescErr
deriving DecidableEq

/-- The data held by an `ElementDescription` that the claims touch. -/
structure ElementDescriptionModel (F : Type) where
  polyOrder : ℕ
  dimension : ℕ
  nodes1D : ℕ
  nodesPerElement : ℕ
  nodeLocs1D : List F
deriving DecidableEq

/-- Modelled from the spec: `ElementDescription.C` is not in the snapshot.
Per spec section 4.1, `create(dimension, order)` fails with
`InvalidOrderError` if `order < 1` or the dimension is not 2 or 3, and
otherwise deterministically produces `order + 1` nodes per dimension,
`(order + 1)^dimension` nodes per element and a fixed 1-D node placement in
`[-1, 1]` (rendered here as the equispaced placement; the spec pins only
determinism, not the exact Gauss-Lobatto-type locations). -/
def ElementDescription.create (dimension order : ℕ) :
    Except ElementDescErr (ElementDescriptionModel F) :=
  if order < 1 ∨ (dimension ≠ 2 ∧ dimension ≠ 3) then
    Except.error ElementDescErr.InvalidOrderError
  else
    Except.ok
      { polyOrder := order
        dimension := dimension
        nodes1D := order + 1
        nodesPerElement := (order + 1) ^ dimension
        nodeLocs1D := (List.range (order + 1)).map fun i => -1 + 2 * (i : F) / (order : F) }

/-! ## Polynomial bridge lemmas -/

theorem poly_val_eq_eval (cs : List F) (x : F) : poly_val cs x = (ofCoeffs cs).eval x := by
  simp [poly_val, ofCoeffs, eval_finset_sum]

theorem degree_ofCoeffs_lt (cs : List F) {n : ℕ} (hn : cs.length ≤ n) :
    (ofCoeffs cs).degree < (n : WithBot ℕ) := by
  refine lt_of_le_of_lt (Polynomial.degree_sum_le _ _) ?_
  rw [Finset.sup_lt_iff (by exact_mod_cast WithBot.bot_lt_coe n)]
  intro j hj
  refine lt_of_le_of_lt (Polynomial.degree_C_mul_X_pow_le j _) ?_
  exact_mod_cast lt_of_lt_of_le (Finset.mem_range.mp hj) hn

theorem natDegree_ofCoeffs_lt (cs : List F) {n : ℕ} (hn : cs.length ≤ n) (h0 : 0 < n) :
    (ofCoeffs cs).natDegree < n := by
  by_cases hz : (ofCoeffs cs : Polynomial F) = 0
  · rw [hz, Polynomial.natDegree_zero]; exact h0
  · exact (Polynomial.natDegree_lt_iff_degree_lt hz).mpr (degree_ofCoeffs_lt cs hn)

theorem derivative_antideriv (p : Polynomial F) : derivative (antideriv p) = p := by
  unfold antideriv
  rw [Polynomial.sum_def, map_sum]
  have h : ∀ n ∈ p.support,
      derivative (Polynomial.C (p.coeff n / ((n : F) + 1)) * Polynomial.X ^ (n + 1)) =
        Polynomial.C (p.coeff n) * Polynomial.X ^ n := by
    intro n _
    rw [Polynomial.derivative_C_mul_X_pow]
    have hne : ((n : F) + 1) ≠ 0 := Nat.cast_add_one_ne_zero n
    have : p.coeff n / ((n : F) + 1) * ((n + 1 : ℕ) : F) = p.coeff n := by
      push_cast
      field_simp
    rw [this, Nat.add_sub_cancel]
  rw [Finset.sum_congr rfl h]
  exact Polynomial.sum_C_mul_X_pow_eq p

theorem intPoly_of_derivative (G p : Polynomial F) (hG : derivative G = p) (a b : F) :
    G.eval b - G.eval a = intPoly p a b := by
  have h0 : derivative (G - antideriv p) = 0 := by
    rw [map_sub, hG, derivative_antideriv, sub_self]
  have hC := Polynomial.eq_C_of_derivative_eq_zero h0
  have hb := congrArg (Polynomial.eval b) hC
  have ha := congrArg (Polynomial.eval a) hC
  simp only [Polynomial.eval_sub, Polynomial.eval_C] at hb ha
  unfold intPoly
  linarith

theorem poly_int_eq_intPoly (cs : List F) (a b : F) :
    poly_int cs a b = intPoly (ofCoeffs cs) a b := by
  have hG : derivative (∑ j ∈ Finset.range cs.length,
      Polynomial.C (cs.getD j 0 / ((j : F) + 1)) * Polynomial.X ^ (j + 1)) = ofCoeffs cs := by
    rw [map_sum]
    unfold ofCoeffs
    refine Finset.sum_congr rfl fun j _ => ?_
    rw [Polynomial.derivative_C_mul_X_pow]
    have hne : ((j : F) + 1) ≠ 0 := Nat.cast_add_one_ne_zero j
    have : cs.getD j 0 / ((j : F) + 1) * ((j + 1 : ℕ) : F) = cs.getD j 0 := by
      field_simp
    rw [this, Nat.add_sub_cancel]
  rw [← intPoly_of_derivative _ _ hG a b]
  unfold poly_int
  simp only [eval_finset_sum, Polynomial.eval_mul, Polynomial.eval_C, Polynomial.eval_pow,
    Polynomial.eval_X]
  congr 1 <;> exact Finset.sum_congr rfl fun j _ => by ring

theorem poly_der_eq_eval (cs : List F) (x : F) :
    poly_der cs x = (derivative (ofCoeffs cs)).eval x := by
  unfold poly_der ofCoeffs
  rw [map_sum, eval_finset_sum]
  have hterm : ∀ j ∈ Finset.range cs.length,
      (derivative (Polynomial.C (cs.getD j 0) * Polynomial.X ^ j)).eval x
        = cs.getD j 0 * x ^ (j - 1) * (j : F) := by
    intro j _
    rw [Polynomial.derivative_C_mul_X_pow]
    simp only [Polynomial.eval_mul, Polynomial.eval_C, Polynomial.eval_pow, Polynomial.eval_X]
    ring
  rw [Finset.sum_congr rfl hterm, Finset.range_eq_Ico]
  refine Finset.sum_subset (Finset.Ico_subset_Ico_left (Nat.zero_le 1)) ?_
  intro j hj hj1
  have hj0 : j = 0 := by
    rcases Finset.mem_Ico.mp hj with ⟨_, h2⟩
    by_contra hne
    exact hj1 (Finset.mem_Ico.mpr ⟨Nat.one_le_iff_ne_zero.mpr hne, h2⟩)
  subst hj0
  simp

theorem gaussExact_scaled {nq d : ℕ} {xq wq : Fin nq → F} (hG : GaussExact nq xq wq d)
    (p : Polynomial F) (hp : p.natDegree ≤ d) (c k : F) :
    ∑ q, (wq q * k) * p.eval (c + k * xq q) = intPoly p (c - k) (c + k) := by
  set aff : Polynomial F := Polynomial.C c + Polynomial.C k * Polynomial.X with haffdef
  have haffd : aff.natDegree ≤ 1 := by
    refine le_trans (Polynomial.natDegree_add_le _ _) ?_
    simp only [Polynomial.natDegree_C, Nat.zero_le, max_le_iff, true_and]
    exact le_trans (Polynomial.natDegree_mul_le)
      (by simp [Polynomial.natDegree_C, Polynomial.natDegree_X])
  have hPd : (Polynomial.C k * p.comp aff).natDegree ≤ d := by
    refine le_trans (Polynomial.natDegree_C_mul_le _ _) ?_
    refine le_trans Polynomial.natDegree_comp_le ?_
    calc p.natDegree * aff.natDegree ≤ p.natDegree * 1 :=
          Nat.mul_le_mul_left _ haffd
      _ = p.natDegree := Nat.mul_one _
      _ ≤ d := hp
  have hmain := hG (Polynomial.C k * p.comp aff) hPd
  have heval : ∀ t : F, (Polynomial.C k * p.comp aff).eval t = k * p.eval (c + k * t) := by
    intro t
    simp [Polynomial.eval_comp, haffdef]
  have hL : ∑ q, wq q * (Polynomial.C k * p.comp aff).eval (xq q) =
      ∑ q, (wq q * k) * p.eval (c + k * xq q) := by
    refine Finset.sum_congr rfl fun q _ => ?_
    rw [heval]
    ring
  have hanti : derivative ((antideriv p).comp aff) = Polynomial.C k * p.comp aff := by
    rw [Polynomial.derivative_comp, derivative_antideriv]
    have : derivative aff = Polynomial.C k := by
      simp [haffdef]
    rw [this]
  have hR := intPoly_of_derivative _ _ hanti (-1) 1
  have he1 : ((antideriv p).comp aff).eval 1 = (antideriv p).eval (c + k) := by
    simp [Polynomial.eval_comp, haffdef]
  have he2 : ((antideriv p).comp aff).eval (-1) = (antideriv p).eval (c - k) := by
    simp [Polynomial.eval_comp, haffdef]
    ring_nf
  rw [← hL, hmain, ← hR, he1, he2]
  unfold intPoly
  ring_nf

/-! ## 1-D Lagrange exactness -/

theorem lagrange1D_eq_eval {m : ℕ} (v : Fin m → F) (i : Fin m) (x : F) :
    lagrange1D v i x = (Lagrange.basis Finset.univ v i).eval x := by
  unfold lagrange1D Lagrange.basis
  rw [Polynomial.eval_prod]
  refine Finset.prod_congr rfl fun j _ => ?_
  unfold Lagrange.basisDivisor
  simp only [Polynomial.eval_mul, Polynomial.eval_C, Polynomial.eval_sub, Polynomial.eval_X]
  rw [div_eq_mul_inv, mul_comm]

theorem lagrangeBasis_eq_C_mul_prod {m : ℕ} (v : Fin m → F) (i : Fin m) :
    Lagrange.basis Finset.univ v i =
      Polynomial.C (∏ j ∈ Finset.univ.erase i, (v i - v j)⁻¹) *
        ∏ j ∈ Finset.univ.erase i, (Polynomial.X - Polynomial.C (v j)) := by
  unfold Lagrange.basis Lagrange.basisDivisor
  rw [Finset.prod_mul_distrib, map_prod]

theorem derivative_finset_prod {ι : Type} [DecidableEq ι] (s : Finset ι)
    (f : ι → Polynomial F) :
    derivative (∏ j ∈ s, f j) = ∑ j ∈ s, (∏ i ∈ s.erase j, f i) * derivative (f j) := by
  induction s using Finset.induction_on with
  | empty => simp
  | @insert a s ha ih =>
    have hstep : ∀ j ∈ s, (∏ i ∈ (insert a s).erase j, f i) * derivative (f j)
        = f a * ((∏ i ∈ s.erase j, f i) * derivative (f j)) := by
      intro j hj
      have hne : a ≠ j := fun h => ha (h ▸ hj)
      have hnotin : a ∉ s.erase j := fun h => ha (Finset.erase_subset _ _ h)
      rw [Finset.erase_insert_of_ne hne, Finset.prod_insert hnotin]
      ring
    rw [Finset.prod_insert ha, Polynomial.derivative_mul, ih, Finset.sum_insert ha,
      Finset.erase_insert ha, Finset.sum_congr rfl hstep, ← Finset.mul_sum]
    ring

theorem lagrange1Dd_eq_eval {m : ℕ} (v : Fin m → F) (i : Fin m) (x : F) :
    lagrange1Dd v i x = (derivative (Lagrange.basis Finset.univ v i)).eval x := by
  rw [lagrangeBasis_eq_C_mul_prod, Polynomial.derivative_C_mul, derivative_finset_prod]
  unfold lagrange1Dd
  simp only [Polynomial.eval_mul, Polynomial.eval_C, eval_finset_sum, Polynomial.eval_prod,
    Polynomial.eval_sub, Polynomial.eval_X, Polynomial.derivative_sub, Polynomial.derivative_X,
    Polynomial.derivative_C, sub_zero, Polynomial.eval_one, mul_one]
  rw [← Finset.sum_div, div_eq_mul_inv, ← Finset.prod_inv_distrib, mul_comm]

theorem sum_lagrange1D_mul {m : ℕ} {v : Fin m → F} (hv : Function.Injective v)
    {p : Polynomial F} (hp : p.degree < (m : WithBot ℕ)) (x : F) :
    ∑ i, lagrange1D v i x * p.eval (v i) = p.eval x := by
  have hinj : Set.InjOn v ↑(Finset.univ : Finset (Fin m)) := hv.injOn
  have hdeg : p.degree < ((Finset.univ : Finset (Fin m)).card : WithBot ℕ) := by
    simpa [Finset.card_univ] using hp
  have h := Lagrange.eq_interpolate hinj hdeg
  conv_rhs => rw [h]
  rw [Lagrange.interpolate_apply, eval_finset_sum]
  refine Finset.sum_congr rfl fun i _ => ?_
  rw [Polynomial.eval_mul, Polynomial.eval_C, lagrange1D_eq_eval, mul_comm]

theorem sum_lagrange1Dd_mul {m : ℕ} {v : Fin m → F} (hv : Function.Injective v)
    {p : Polynomial F} (hp : p.degree < (m : WithBot ℕ)) (x : F) :
    ∑ i, lagrange1Dd v i x * p.eval (v i) = (derivative p).eval x := by
  have hinj : Set.InjOn v ↑(Finset.univ : Finset (Fin m)) := hv.injOn
  have hdeg : p.degree < ((Finset.univ : Finset (Fin m)).card : WithBot ℕ) := by
    simpa [Finset.card_univ] using hp
  have h := Lagrange.eq_interpolate hinj hdeg
  have hd := congrArg derivative h
  rw [Lagrange.interpolate_apply, map_sum] at hd
  rw [hd, eval_finset_sum]
  refine Finset.sum_congr rfl fun i _ => ?_
  rw [Polynomial.derivative_C_mul, Polynomial.eval_mul, Polynomial.eval_C,
    lagrange1Dd_eq_eval, mul_comm]

theorem sum_lagrange1D_one {m : ℕ} {v : Fin m → F} (hv : Function.Injective v)
    (hm : 1 ≤ m) (x : F) : ∑ i, lagrange1D v i x = 1 := by
  have hdeg : (1 : Polynomial F).degree < (m : WithBot ℕ) := by
    rw [Polynomial.degree_one]
    exact_mod_cast Nat.pos_of_ne_zero (by omega)
  have h := sum_lagrange1D_mul hv hdeg x
  simpa using h

theorem sum_lagrange1D_id {m : ℕ} {v : Fin m → F} (hv : Function.Injective v)
    (hm : 2 ≤ m) (x : F) : ∑ i, lagrange1D v i x * v i = x := by
  have hdeg : (Polynomial.X : Polynomial F).degree < (m : WithBot ℕ) := by
    rw [Polynomial.degree_X]
    exact_mod_cast hm
  have h := sum_lagrange1D_mul hv hdeg x
  simpa using h

theorem sum_lagrange1Dd_zero {m : ℕ} {v : Fin m → F} (hv : Function.Injective v)
    (hm : 1 ≤ m) (x : F) : ∑ i, lagrange1Dd v i x = 0 := by
  have hdeg : (1 : Polynomial F).degree < (m : WithBot ℕ) := by
    rw [Polynomial.degree_one]
    exact_mod_cast Nat.pos_of_ne_zero (by omega)
  have h := sum_lagrange1Dd_mul hv hdeg x
  simpa using h

theorem sum_lagrange1Dd_id {m : ℕ} {v : Fin m → F} (hv : Function.Injective v)
    (hm : 2 ≤ m) (x : F) : ∑ i, lagrange1Dd v i x * v i = 1 := by
  have hdeg : (Polynomial.X : Polynomial F).degree < (m : WithBot ℕ) := by
    rw [Polynomial.degree_X]
    exact_mod_cast hm
  have h := sum_lagrange1Dd_mul hv hdeg x
  simpa using h

theorem sum_lagrange1D_polyval {m : ℕ} {v : Fin m → F} (hv : Function.Injective v)
    {cs : List F} (hlen : cs.length ≤ m) (x : F) :
    ∑ i, lagrange1D v i x * poly_val cs (v i) = poly_val cs x := by
  simp only [poly_val_eq_eval]
  exact sum_lagrange1D_mul hv (degree_ofCoeffs_lt cs hlen) x

theorem sum_lagrange1Dd_polyval {m : ℕ} {v : Fin m → F} (hv : Function.Injective v)
    {cs : List F} (hlen : cs.length ≤ m) (x : F) :
    ∑ i, lagrange1Dd v i x * poly_val cs (v i) = poly_der cs x := by
  simp only [poly_val_eq_eval, poly_der_eq_eval]
  exact sum_lagrange1Dd_mul hv (degree_ofCoeffs_lt cs hlen) x

/-! ## Lane processing lemmas (`AssembleElemSolverAlgorithm::execute`) -/

theorem relaxDiagLoop_apply {R : ℕ} (factor : F) :
    ∀ l : List (Fin R), l.Nodup → ∀ (lhs : Fin R → Fin R → F) (i j : Fin R),
      relaxDiagLoop factor l lhs i j =
        if i = j ∧ i ∈ l then lhs i j / factor else lhs i j := by
  intro l
  induction l with
  | nil => intro _ lhs i j; simp [relaxDiagLoop]
  | cons ir rest ih =>
    intro hnd lhs i j
    have hnd' := (List.nodup_cons.mp hnd).2
    have hirnot := (List.nodup_cons.mp hnd).1
    rw [relaxDiagLoop, ih hnd']
    unfold relaxDiagEntry
    by_cases hij : i = j
    · subst hij
      by_cases hir : i = ir
      · subst hir
        simp [hirnot]
      · by_cases hmem : i ∈ rest
        · simp [hir, hmem]
        · simp [hir, hmem]
    · have h1 : ¬(i = ir ∧ j = ir) := fun h => hij (h.1.trans h.2.symm)
      simp [hij, h1]

theorem applyDiagRelax_apply {R : ℕ} (factor : F) (lhs : Fin R → Fin R → F) (i j : Fin R) :
    applyDiagRelax factor lhs i j = if i = j then lhs i j / factor else lhs i j := by
  unfold applyDiagRelax
  rw [relaxDiagLoop_apply factor (List.finRange R) (List.nodup_finRange R)]
  simp [List.mem_finRange]

/-! ## Tensor-product splitting and exactness -/

theorem sum_double_split {m : ℕ} (A B f g : Fin m → F) :
    ∑ n : N2 m, (A n.1 * B n.2) * (f n.1 * g n.2) = (∑ i, A i * f i) * (∑ j, B j * g j) := by
  rw [Finset.sum_mul_sum, Fintype.sum_prod_type]
  exact Finset.sum_congr rfl fun i _ => Finset.sum_congr rfl fun j _ => by ring

theorem sum_triple_split {m : ℕ} (A B C f g h : Fin m → F) :
    ∑ n : N3 m, (A n.1 * B n.2.1 * C n.2.2) * (f n.1 * (g n.2.1 * h n.2.2)) =
      (∑ i, A i * f i) * ((∑ j, B j * g j) * (∑ k, C k * h k)) := by
  calc ∑ n : N3 m, (A n.1 * B n.2.1 * C n.2.2) * (f n.1 * (g n.2.1 * h n.2.2))
      = ∑ i, (A i * f i) * ∑ n2 : N2 m, (B n2.1 * C n2.2) * (g n2.1 * h n2.2) := by
        rw [Fintype.sum_prod_type]
        refine Finset.sum_congr rfl fun i _ => ?_
        rw [Finset.mul_sum]
        exact Finset.sum_congr rfl fun n2 _ => by ring
    _ = ∑ i, (A i * f i) * ((∑ j, B j * g j) * (∑ k, C k * h k)) := by
        rw [sum_double_split]
    _ = (∑ i, A i * f i) * ((∑ j, B j * g j) * (∑ k, C k * h k)) := by
        rw [← Finset.sum_mul]

theorem basisWeight2_exact {m : ℕ} {v : Fin m → F} (hv : Function.Injective v)
    {cX cY : List F} (hX : cX.length ≤ m) (hY : cY.length ≤ m) (x y : F) :
    ∑ n : N2 m, basisWeight2 v x y n * (poly_val cX (v n.1) * poly_val cY (v n.2)) =
      poly_val cX x * poly_val cY y := by
  have h := sum_double_split (fun i => lagrange1D v i x) (fun j => lagrange1D v j y)
    (fun i => poly_val cX (v i)) (fun j => poly_val cY (v j))
  rw [sum_lagrange1D_polyval hv hX x, sum_lagrange1D_polyval hv hY y] at h
  simpa [basisWeight2] using h

theorem derivWeight2_exact_x {m : ℕ} {v : Fin m → F} (hv : Function.Injective v)
    {cX cY : List F} (hX : cX.length ≤ m) (hY : cY.length ≤ m) (x y : F) :
    ∑ n : N2 m, derivWeight2 v x y n 0 * (poly_val cX (v n.1) * poly_val cY (v n.2)) =
      poly_der cX x * poly_val cY y := by
  have h := sum_double_split (fun i => lagrange1Dd v i x) (fun j => lagrange1D v j y)
    (fun i => poly_val cX (v i)) (fun j => poly_val cY (v j))
  rw [sum_lagrange1Dd_polyval hv hX x, sum_lagrange1D_polyval hv hY y] at h
  simpa [derivWeight2] using h

theorem derivWeight2_exact_y {m : ℕ} {v : Fin m → F} (hv : Function.Injective v)
    {cX cY : List F} (hX : cX.length ≤ m) (hY : cY.length ≤ m) (x y : F) :
    ∑ n : N2 m, derivWeight2 v x y n 1 * (poly_val cX (v n.1) * poly_val cY (v n.2)) =
      poly_val cX x * poly_der cY y := by
  have h := sum_double_split (fun i => lagrange1D v i x) (fun j => lagrange1Dd v j y)
    (fun i => poly_val cX (v i)) (fun j => poly_val cY (v j))
  rw [sum_lagrange1D_polyval hv hX x, sum_lagrange1Dd_polyval hv hY y] at h
  simpa [derivWeight2] using h

theorem basisWeight2_partition {m : ℕ} {v : Fin m → F} (hv : Function.Injective v)
    (hm : 1 ≤ m) (x y : F) : ∑ n : N2 m, basisWeight2 v x y n = 1 := by
  have h := sum_double_split (fun i => lagrange1D v i x) (fun j => lagrange1D v j y)
    (fun _ => (1 : F)) (fun _ => (1 : F))
  simp only [mul_one] at h
  rw [sum_lagrange1D_one hv hm x, sum_lagrange1D_one hv hm y] at h
  simpa [basisWeight2] using h

theorem basisWeight3_exact {m : ℕ} {v : Fin m → F} (hv : Function.Injective v)
    {cX cY cZ : List F} (hX : cX.length ≤ m) (hY : cY.length ≤ m) (hZ : cZ.length ≤ m)
    (p : Fin 3 → F) :
    ∑ n : N3 m, basisWeight3 v p n *
        (poly_val cX (v n.1) * (poly_val cY (v n.2.1) * poly_val cZ (v n.2.2))) =
      poly_val cX (p 0) * (poly_val cY (p 1) * poly_val cZ (p 2)) := by
  have h := sum_triple_split (fun i => lagrange1D v i (p 0)) (fun j => lagrange1D v j (p 1))
    (fun k => lagrange1D v k (p 2)) (fun i => poly_val cX (v i)) (fun j => poly_val cY (v j))
    (fun k => poly_val cZ (v k))
  rw [sum_lagrange1D_polyval hv hX (p 0), sum_lagrange1D_polyval hv hY (p 1),
    sum_lagrange1D_polyval hv hZ (p 2)] at h
  simpa [basisWeight3] using h

theorem derivWeight3_exact_x {m : ℕ} {v : Fin m → F} (hv : Function.Injective v)
    {cX cY cZ : List F} (hX : cX.length ≤ m) (hY : cY.length ≤ m) (hZ : cZ.length ≤ m)
    (p : Fin 3 → F) :
    ∑ n : N3 m, derivWeight3 v p n 0 *
        (poly_val cX (v n.1) * (poly_val cY (v n.2.1) * poly_val cZ (v n.2.2))) =
      poly_der cX (p 0) * (poly_val cY (p 1) * poly_val cZ (p 2)) := by
  have h := sum_triple_split (fun i => lagrange1Dd v i (p 0)) (fun j => lagrange1D v j (p 1))
    (fun k => lagrange1D v k (p 2)) (fun i => poly_val cX (v i)) (fun j => poly_val cY (v j))
    (fun k => poly_val cZ (v k))
  rw [sum_lagrange1Dd_polyval hv hX (p 0), sum_lagrange1D_polyval hv hY (p 1),
    sum_lagrange1D_polyval hv hZ (p 2)] at h
  simpa [derivWeight3] using h

theorem derivWeight3_exact_y {m : ℕ} {v : Fin m → F} (hv : Function.Injective v)
    {cX cY cZ : List F} (hX : cX.length ≤ m) (hY : cY.length ≤ m) (hZ : cZ.length ≤ m)
    (p : Fin 3 → F) :
    ∑ n : N3 m, derivWeight3 v p n 1 *
        (poly_val cX (v n.1) * (poly_val cY (v n.2.1) * poly_val cZ (v n.2.2))) =
      poly_val cX (p 0) * (poly_der cY (p 1) * poly_val cZ (p 2)) := by
  have h := sum_triple_split (fun i => lagrange1D v i (p 0)) (fun j => lagrange1Dd v j (p 1))
    (fun k => lagrange1D v k (p 2)) (fun i => poly_val cX (v i)) (fun j => poly_val cY (v j))
    (fun k => poly_val cZ (v k))
  rw [sum_lagrange1D_polyval hv hX (p 0), sum_lagrange1Dd_polyval hv hY (p 1),
    sum_lagrange1D_polyval hv hZ (p 2)] at h
  simpa [derivWeight3] using h

theorem derivWeight3_exact_z {m : ℕ} {v : Fin m → F} (hv : Function.Injective v)
    {cX cY cZ : List F} (hX : cX.length ≤ m) (hY : cY.length ≤ m) (hZ : cZ.length ≤ m)
    (p : Fin 3 → F) :
    ∑ n : N3 m, derivWeight3 v p n 2 *
        (poly_val cX (v n.1) * (poly_val cY (v n.2.1) * poly_val cZ (v n.2.2))) =
      poly_val cX (p 0) * (poly_val cY (p 1) * poly_der cZ (p 2)) := by
  have h := sum_triple_split (fun i => lagrange1D v i (p 0)) (fun j => lagrange1D v j (p 1))
    (fun k => lagrange1Dd v k (p 2)) (fun i => poly_val cX (v i)) (fun j => poly_val cY (v j))
    (fun k => poly_val cZ (v k))
  rw [sum_lagrange1D_polyval hv hX (p 0), sum_lagrange1D_polyval hv hY (p 1),
    sum_lagrange1Dd_polyval hv hZ (p 2)] at h
  simpa [derivWeight3] using h

theorem basisWeight3_partition {m : ℕ} {v : Fin m → F} (hv : Function.Injective v)
    (hm : 1 ≤ m) (p : Fin 3 → F) : ∑ n : N3 m, basisWeight3 v p n = 1 := by
  have h := sum_triple_split (fun i => lagrange1D v i (p 0)) (fun j => lagrange1D v j (p 1))
    (fun k => lagrange1D v k (p 2)) (fun _ => (1 : F)) (fun _ => (1 : F)) (fun _ => (1 : F))
  simp only [mul_one] at h
  rw [sum_lagrange1D_one hv hm (p 0), sum_lagrange1D_one hv hm (p 1),
    sum_lagrange1D_one hv hm (p 2)] at h
  simpa [basisWeight3] using h

/-! ## Sub-control-volume quadrature consistency -/

theorem scvAccum2_eq {m nq : ℕ} (v : Fin m → F) (e : Fin (m + 1) → F) (xq wq : Fin nq → F)
    (nodal : N2 m → F) (n : N2 m) :
    scvAccum2 v e xq wq nodal n = ∑ q : Fin nq × Fin nq,
      ((wq q.1 * scvHalf e n.1) * (wq q.2 * scvHalf e n.2)) *
        scvInterp2 v (scvMid e n.1 + scvHalf e n.1 * xq q.1)
          (scvMid e n.2 + scvHalf e n.2 * xq q.2) nodal := by
  unfold scvAccum2
  rw [Fintype.sum_prod_type]
  refine (Finset.sum_eq_single n (fun n2 _ hne => by simp [hne])
    (fun hn => absurd (Finset.mem_univ n) hn)).trans ?_
  simp

theorem scvAccum3_eq {m nq : ℕ} (v : Fin m → F) (e : Fin (m + 1) → F) (xq wq : Fin nq → F)
    (nodal : N3 m → F) (n : N3 m) :
    scvAccum3 v e xq wq nodal n = ∑ q : Fin nq × Fin nq × Fin nq,
      ((wq q.1 * scvHalf e n.1) * ((wq q.2.1 * scvHalf e n.2.1) *
          (wq q.2.2 * scvHalf e n.2.2))) *
        scvInterp3 v
          ![scvMid e n.1 + scvHalf e n.1 * xq q.1,
            scvMid e n.2.1 + scvHalf e n.2.1 * xq q.2.1,
            scvMid e n.2.2 + scvHalf e n.2.2 * xq q.2.2] nodal := by
  unfold scvAccum3
  rw [Fintype.sum_prod_type]
  refine (Finset.sum_eq_single n (fun n3 _ hne => by simp [hne])
    (fun hn => absurd (Finset.mem_univ n) hn)).trans ?_
  simp

theorem scvAccum2_exact {m nq d : ℕ} {v : Fin m → F} (hv : Function.Injective v)
    (e : Fin (m + 1) → F) {xq wq : Fin nq → F} (hG : GaussExact nq xq wq d)
    {cX cY : List F} (hX : cX.length ≤ m) (hY : cY.length ≤ m)
    (hXd : cX.length ≤ d + 1) (hYd : cY.length ≤ d + 1) (n : N2 m) :
    scvAccum2 v e xq wq (fun n2 => poly_val cX (v n2.1) * poly_val cY (v n2.2)) n =
      poly_int cX (e n.1.castSucc) (e n.1.succ) * poly_int cY (e n.2.castSucc) (e n.2.succ) := by
  have hdX : (ofCoeffs cX).natDegree ≤ d :=
    Nat.lt_succ_iff.mp (natDegree_ofCoeffs_lt cX hXd (Nat.succ_pos d))
  have hdY : (ofCoeffs cY).natDegree ≤ d :=
    Nat.lt_succ_iff.mp (natDegree_ofCoeffs_lt cY hYd (Nat.succ_pos d))
  rw [scvAccum2_eq]
  have hstep1 : ∀ q : Fin nq × Fin nq,
      ((wq q.1 * scvHalf e n.1) * (wq q.2 * scvHalf e n.2)) *
        scvInterp2 v (scvMid e n.1 + scvHalf e n.1 * xq q.1)
          (scvMid e n.2 + scvHalf e n.2 * xq q.2)
          (fun n2 => poly_val cX (v n2.1) * poly_val cY (v n2.2)) =
      ((wq q.1 * scvHalf e n.1) * (wq q.2 * scvHalf e n.2)) *
        (poly_val cX (scvMid e n.1 + scvHalf e n.1 * xq q.1) *
          poly_val cY (scvMid e n.2 + scvHalf e n.2 * xq q.2)) := by
    intro q
    rw [scvInterp2, basisWeight2_exact hv hX hY]
  rw [Finset.sum_congr rfl fun q _ => hstep1 q]
  rw [sum_double_split (fun q1 => wq q1 * scvHalf e n.1) (fun q2 => wq q2 * scvHalf e n.2)
    (fun q1 => poly_val cX (scvMid e n.1 + scvHalf e n.1 * xq q1))
    (fun q2 => poly_val cY (scvMid e n.2 + scvHalf e n.2 * xq q2))]
  simp only [poly_val_eq_eval]
  rw [gaussExact_scaled hG (ofCoeffs cX) hdX (scvMid e n.1) (scvHalf e n.1),
    gaussExact_scaled hG (ofCoeffs cY) hdY (scvMid e n.2) (scvHalf e n.2)]
  rw [poly_int_eq_intPoly, poly_int_eq_intPoly]
  have h1 : scvMid e n.1 - scvHalf e n.1 = e n.1.castSucc := by unfold scvMid scvHalf; ring
  have h2 : scvMid e n.1 + scvHalf e n.1 = e n.1.succ := by unfold scvMid scvHalf; ring
  have h3 : scvMid e n.2 - scvHalf e n.2 = e n.2.castSucc := by unfold scvMid scvHalf; ring
  have h4 : scvMid e n.2 + scvHalf e n.2 = e n.2.succ := by unfold scvMid scvHalf; ring
  rw [h1, h2, h3, h4]

theorem scvAccum3_exact {m nq d : ℕ} {v : Fin m → F} (hv : Function.Injective v)
    (e : Fin (m + 1) → F) {xq wq : Fin nq → F} (hG : GaussExact nq xq wq d)
    {cX cY cZ : List F} (hX : cX.length ≤ m) (hY : cY.length ≤ m) (hZ : cZ.length ≤ m)
    (hXd : cX.length ≤ d + 1) (hYd : cY.length ≤ d + 1) (hZd : cZ.length ≤ d + 1) (n : N3 m) :
    scvAccum3 v e xq wq
        (fun n3 => poly_val cX (v n3.1) * (poly_val cY (v n3.2.1) * poly_val cZ (v n3.2.2))) n =
      poly_int cX (e n.1.castSucc) (e n.1.succ) *
        (poly_int cY (e n.2.1.castSucc) (e n.2.1.succ) *
          poly_int cZ (e n.2.2.castSucc) (e n.2.2.succ)) := by
  have hdX : (ofCoeffs cX).natDegree ≤ d :=
    Nat.lt_succ_iff.mp (natDegree_ofCoeffs_lt cX hXd (Nat.succ_pos d))
  have hdY : (ofCoeffs cY).natDegree ≤ d :=
    Nat.lt_succ_iff.mp (natDegree_ofCoeffs_lt cY hYd (Nat.succ_pos d))
  have hdZ : (ofCoeffs cZ).natDegree ≤ d :=
    Nat.lt_succ_iff.mp (natDegree_ofCoeffs_lt cZ hZd (Nat.succ_pos d))
  rw [scvAccum3_eq]
  have hstep1 : ∀ q : Fin nq × Fin nq × Fin nq,
      ((wq q.1 * scvHalf e n.1) * ((wq q.2.1 * scvHalf e n.2.1) *
          (wq q.2.2 * scvHalf e n.2.2))) *
        scvInterp3 v
          ![scvMid e n.1 + scvHalf e n.1 * xq q.1,
            scvMid e n.2.1 + scvHalf e n.2.1 * xq q.2.1,
            scvMid e n.2.2 + scvHalf e n.2.2 * xq q.2.2]
          (fun n3 => poly_val cX (v n3.1) * (poly_val cY (v n3.2.1) * poly_val cZ (v n3.2.2))) =
      ((wq q.1 * scvHalf e n.1) * (wq q.2.1 * scvHalf e n.2.1) *
          (wq q.2.2 * scvHalf e n.2.2)) *
        (poly_val cX (scvMid e n.1 + scvHalf e n.1 * xq q.1) *
          (poly_val cY (scvMid e n.2.1 + scvHalf e n.2.1 * xq q.2.1) *
            poly_val cZ (scvMid e n.2.2 + scvHalf e n.2.2 * xq q.2.2))) := by
    intro q
    rw [scvInterp3, basisWeight3_exact hv hX hY hZ]
    simp only [Matrix.cons_val_zero, Matrix.cons_val_one, Matrix.head_cons, Matrix.cons_val_two,
      Matrix.tail_cons]
    ring
  rw [Finset.sum_congr rfl fun q _ => hstep1 q]
  rw [sum_triple_split (fun q1 => wq q1 * scvHalf e n.1) (fun q2 => wq q2 * scvHalf e n.2.1)
    (fun q3 => wq q3 * scvHalf e n.2.2)
    (fun q1 => poly_val cX (scvMid e n.1 + scvHalf e n.1 * xq q1))
    (fun q2 => poly_val cY (scvMid e n.2.1 + scvHalf e n.2.1 * xq q2))
    (fun q3 => poly_val cZ (scvMid e n.2.2 + scvHalf e n.2.2 * xq q3))]
  simp only [poly_val_eq_eval]
  rw [gaussExact_scaled hG (ofCoeffs cX) hdX (scvMid e n.1) (scvHalf e n.1),
    gaussExact_scaled hG (ofCoeffs cY) hdY (scvMid e n.2.1) (scvHalf e n.2.1),
    gaussExact_scaled hG (ofCoeffs cZ) hdZ (scvMid e n.2.2) (scvHalf e n.2.2)]
  rw [poly_int_eq_intPoly, poly_int_eq_intPoly, poly_int_eq_intPoly]
  have h1 : scvMid e n.1 - scvHalf e n.1 = e n.1.castSucc := by unfold scvMid scvHalf; ring
  have h2 : scvMid e n.1 + scvHalf e n.1 = e n.1.succ := by unfold scvMid scvHalf; ring
  have h3 : scvMid e n.2.1 - scvHalf e n.2.1 = e n.2.1.castSucc := by unfold scvMid scvHalf; ring
  have h4 : scvMid e n.2.1 + scvHalf e n.2.1 = e n.2.1.succ := by unfold scvMid scvHalf; ring
  have h5 : scvMid e n.2.2 - scvHalf e n.2.2 = e n.2.2.castSucc := by unfold scvMid scvHalf; ring
  have h6 : scvMid e n.2.2 + scvHalf e n.2.2 = e n.2.2.succ := by unfold scvMid scvHalf; ring
  rw [h1, h2, h3, h4, h5, h6]

/-! ## Master element on reference coordinates -/

theorem geom3_refCoords {m : ℕ} {v : Fin m → F} (hv : Function.Injective v) (hm : 2 ≤ m)
    (ξ : Fin 3 → F) (a : Fin 3) : geom3 v (refCoords3 v) ξ a = ξ a := by
  have hm1 : 1 ≤ m := le_trans (by norm_num) hm
  fin_cases a
  · have h := sum_triple_split (fun i => lagrange1D v i (ξ 0)) (fun j => lagrange1D v j (ξ 1))
      (fun k => lagrange1D v k (ξ 2)) v (fun _ => (1 : F)) (fun _ => (1 : F))
    simp only [mul_one] at h
    rw [sum_lagrange1D_id hv hm (ξ 0), sum_lagrange1D_one hv hm1 (ξ 1),
      sum_lagrange1D_one hv hm1 (ξ 2)] at h
    unfold geom3 refCoords3 basisWeight3
    simpa using h
  · have h := sum_triple_split (fun i => lagrange1D v i (ξ 0)) (fun j => lagrange1D v j (ξ 1))
      (fun k => lagrange1D v k (ξ 2)) (fun _ => (1 : F)) v (fun _ => (1 : F))
    simp only [mul_one, one_mul] at h
    rw [sum_lagrange1D_one hv hm1 (ξ 0), sum_lagrange1D_id hv hm (ξ 1),
      sum_lagrange1D_one hv hm1 (ξ 2)] at h
    unfold geom3 refCoords3 basisWeight3
    simpa using h
  · have h := sum_triple_split (fun i => lagrange1D v i (ξ 0)) (fun j => lagrange1D v j (ξ 1))
      (fun k => lagrange1D v k (ξ 2)) (fun _ => (1 : F)) (fun _ => (1 : F)) v
    simp only [mul_one, one_mul] at h
    rw [sum_lagrange1D_one hv hm1 (ξ 0), sum_lagrange1D_one hv hm1 (ξ 1),
      sum_lagrange1D_id hv hm (ξ 2)] at h
    unfold geom3 refCoords3 basisWeight3
    simpa using h

theorem jac3_refCoords {m : ℕ} {v : Fin m → F} (hv : Function.Injective v) (hm : 2 ≤ m)
    (ξ : Fin 3 → F) (a c : Fin 3) :
    jac3 v (refCoords3 v) ξ a c = if a = c then 1 else 0 := by
  have hm1 : 1 ≤ m := le_trans (by norm_num) hm
  fin_cases a <;> fin_cases c
  · have h := sum_triple_split (fun i => lagrange1Dd v i (ξ 0)) (fun j => lagrange1D v j (ξ 1))
      (fun k => lagrange1D v k (ξ 2)) v (fun _ => (1 : F)) (fun _ => (1 : F))
    simp only [mul_one] at h
    rw [sum_lagrange1Dd_id hv hm (ξ 0), sum_lagrange1D_one hv hm1 (ξ 1),
      sum_lagrange1D_one hv hm1 (ξ 2)] at h
    unfold jac3 refCoords3 derivWeight3
    simpa using h
  · have h := sum_triple_split (fun i => lagrange1D v i (ξ 0)) (fun j => lagrange1Dd v j (ξ 1))
      (fun k => lagrange1D v k (ξ 2)) v (fun _ => (1 : F)) (fun _ => (1 : F))
    simp only [mul_one] at h
    rw [sum_lagrange1D_id hv hm (ξ 0), sum_lagrange1Dd_zero hv hm1 (ξ 1),
      sum_lagrange1D_one hv hm1 (ξ 2)] at h
    unfold jac3 refCoords3 derivWeight3
    simpa using h
  · have h := sum_triple_split (fun i => lagrange1D v i (ξ 0)) (fun j => lagrange1D v j (ξ 1))
      (fun k => lagrange1Dd v k (ξ 2)) v (fun _ => (1 : F)) (fun _ => (1 : F))
    simp only [mul_one] at h
    rw [sum_lagrange1D_id hv hm (ξ 0), sum_lagrange1D_one hv hm1 (ξ 1),
      sum_lagrange1Dd_zero hv hm1 (ξ 2)] at h
    unfold jac3 refCoords3 derivWeight3
    simpa using h
  · have h := sum_triple_split (fun i => lagrange1Dd v i (ξ 0)) (fun j => lagrange1D v j (ξ 1))
      (fun k => lagrange1D v k (ξ 2)) (fun _ => (1 : F)) v (fun _ => (1 : F))
    simp only [mul_one, one_mul] at h
    rw [sum_lagrange1Dd_zero hv hm1 (ξ 0), sum_lagrange1D_id hv hm (ξ 1),
      sum_lagrange1D_one hv hm1 (ξ 2)] at h
    unfold jac3 refCoords3 derivWeight3
    simpa using h
  · have h := sum_triple_split (fun i => lagrange1D v i (ξ 0)) (fun j => lagrange1Dd v j (ξ 1))
      (fun k => lagrange1D v k (ξ 2)) (fun _ => (1 : F)) v (fun _ => (1 : F))
    simp only [mul_one, one_mul] at h
    rw [sum_lagrange1D_one hv hm1 (ξ 0), sum_lagrange1Dd_id hv hm (ξ 1),
      sum_lagrange1D_one hv hm1 (ξ 2)] at h
    unfold jac3 refCoords3 derivWeight3
    simpa using h
  · have h := sum_triple_split (fun i => lagrange1D v i (ξ 0)) (fun j => lagrange1D v j (ξ 1))
      (fun k => lagrange1Dd v k (ξ 2)) (fun _ => (1 : F)) v (fun _ => (1 : F))
    simp only [mul_one, one_mul] at h
    rw [sum_lagrange1D_one hv hm1 (ξ 0), sum_lagrange1D_id hv hm (ξ 1),
      sum_lagrange1Dd_zero hv hm1 (ξ 2)] at h
    unfold jac3 refCoords3 derivWeight3
    simpa using h
  · have h := sum_triple_split (fun i => lagrange1Dd v i (ξ 0)) (fun j => lagrange1D v j (ξ 1))
      (fun k => lagrange1D v k (ξ 2)) (fun _ => (1 : F)) (fun _ => (1 : F)) v
    simp only [mul_one, one_mul] at h
    rw [sum_lagrange1Dd_zero hv hm1 (ξ 0), sum_lagrange1D_one hv hm1 (ξ 1),
      sum_lagrange1D_id hv hm (ξ 2)] at h
    unfold jac3 refCoords3 derivWeight3
    simpa using h
  · have h := sum_triple_split (fun i => lagrange1D v i (ξ 0)) (fun j => lagrange1Dd v j (ξ 1))
      (fun k => lagrange1D v k (ξ 2)) (fun _ => (1 : F)) (fun _ => (1 : F)) v
    simp only [mul_one, one_mul] at h
    rw [sum_lagrange1D_one hv hm1 (ξ 0), sum_lagrange1Dd_zero hv hm1 (ξ 1),
      sum_lagrange1D_id hv hm (ξ 2)] at h
    unfold jac3 refCoords3 derivWeight3
    simpa using h
  · have h := sum_triple_split (fun i => lagrange1D v i (ξ 0)) (fun j => lagrange1D v j (ξ 1))
      (fun k => lagrange1Dd v k (ξ 2)) (fun _ => (1 : F)) (fun _ => (1 : F)) v
    simp only [mul_one, one_mul] at h
    rw [sum_lagrange1D_one hv hm1 (ξ 0), sum_lagrange1D_one hv hm1 (ξ 1),
      sum_lagrange1Dd_id hv hm (ξ 2)] at h
    unfold jac3 refCoords3 derivWeight3
    simpa using h

/-! ## The 3×3 solver -/

theorem solve3_ident (r : Fin 3 → F) (d : Fin 3) :
    solve3 (fun a c => if a = c then 1 else 0) r d = r d := by
  fin_cases d <;> simp [solve3, det3]

theorem det3_transpose (J : Fin 3 → Fin 3 → F) : det3 (fun a c => J c a) = det3 J := by
  unfold det3
  ring

theorem solve3_mulVec (J : Fin 3 → Fin 3 → F) (hdet : det3 J ≠ 0) (x : Fin 3 → F) (d : Fin 3) :
    solve3 J (fun a => ∑ c, J a c * x c) d = x d := by
  have hsum : ∀ a, (∑ c, J a c * x c) = J a 0 * x 0 + J a 1 * x 1 + J a 2 * x 2 := fun a =>
    Fin.sum_univ_three _
  have hdet' : det3 J ≠ 0 := hdet
  unfold det3 at hdet'
  fin_cases d <;>
  · simp only [solve3, hsum, det3, Fin.zero_eta, Fin.mk_one, Fin.reduceFinMk, Fin.isValue,
      Fin.reduceEq, if_true, if_false, reduceIte]
    rw [div_eq_iff hdet']
    ring

theorem solve3_add (J : Fin 3 → Fin 3 → F) (r s : Fin 3 → F) (d : Fin 3) :
    solve3 J (fun c => r c + s c) d = solve3 J r d + solve3 J s d := by
  fin_cases d <;>
  · simp only [solve3, Fin.zero_eta, Fin.mk_one, Fin.reduceFinMk, Fin.isValue,
      Fin.reduceEq, if_true, if_false, reduceIte]
    rw [div_add_div_same]
    congr 1
    ring

theorem solve3_zero (J : Fin 3 → Fin 3 → F) (d : Fin 3) :
    solve3 J (fun _ => 0) d = 0 := by
  fin_cases d <;> simp [solve3]

theorem solve3_sum {ι : Type} (s : Finset ι) (J : Fin 3 → Fin 3 → F) (r : ι → Fin 3 → F)
    (d : Fin 3) :
    solve3 J (fun c => ∑ n ∈ s, r n c) d = ∑ n ∈ s, solve3 J (r n) d := by
  classical
  induction s using Finset.induction_on with
  | empty => simp [solve3_zero]
  | @insert a s ha ih =>
    simp only [Finset.sum_insert ha]
    rw [solve3_add J (r a) (fun c => ∑ n ∈ s, r n c) d, ih]

theorem solve3_smul (J : Fin 3 → Fin 3 → F) (t : F) (r : Fin 3 → F) (d : Fin 3) :
    solve3 J (fun c => t * r c) d = t * solve3 J r d := by
  fin_cases d <;>
  · simp only [solve3, Fin.zero_eta, Fin.mk_one, Fin.reduceFinMk, Fin.isValue,
      Fin.reduceEq, if_true, if_false, reduceIte]
    rw [← mul_div_assoc]
    congr 1
    ring

/-! ## Newton point location on the reference-coordinate element -/

theorem newtonStep3_refCoords {m : ℕ} {v : Fin m → F} (hv : Function.Injective v) (hm : 2 ≤ m)
    (pt ξ : Fin 3 → F) : newtonStep3 v (refCoords3 v) pt ξ = pt := by
  funext d
  unfold newtonStep3
  have hj : jac3 v (refCoords3 v) ξ = fun a c => if a = c then 1 else 0 := by
    funext a c
    exact jac3_refCoords hv hm ξ a c
  have hr : (fun a => geom3 v (refCoords3 v) ξ a - pt a) = fun a => ξ a - pt a := by
    funext a
    rw [geom3_refCoords hv hm ξ a]
  rw [hj, hr, solve3_ident]
  ring

theorem newtonIterate3_refCoords {m : ℕ} {v : Fin m → F} (hv : Function.Injective v)
    (hm : 2 ≤ m) (pt : Fin 3 → F) (fuel : ℕ) :
    newtonIterate3 v (refCoords3 v) pt (fuel + 1) = pt := by
  rw [newtonIterate3]
  exact newtonStep3_refCoords hv hm pt _

theorem isInElement_refCoords {m : ℕ} {v : Fin m → F} (hv : Function.Injective v)
    (hm : 2 ≤ m) (pt : Fin 3 → F) :
    isInElement v (refCoords3 v) pt = (parametricDistance3 pt, pt) := by
  unfold isInElement maxNewtonIter
  rw [show (20 : ℕ) = 19 + 1 from rfl, newtonIterate3_refCoords hv hm pt 19]

/-! ## Affine fields through interpolation and the gradient operator -/

theorem sum_weight_affine {m : ℕ} (W : N3 m → F) (coords : N3 m → Fin 3 → F) (a : F)
    (b : Fin 3 → F) :
    ∑ n, W n * (a + ∑ e, b e * coords n e) =
      a * (∑ n, W n) + ∑ e, b e * ∑ n, W n * coords n e := by
  calc ∑ n, W n * (a + ∑ e, b e * coords n e)
      = ∑ n, (W n * a + ∑ e, b e * (W n * coords n e)) := by
        refine Finset.sum_congr rfl fun n _ => ?_
        rw [mul_add, Finset.mul_sum]
        congr 1
        exact Finset.sum_congr rfl fun e _ => by ring
    _ = (∑ n, W n * a) + ∑ n, ∑ e, b e * (W n * coords n e) := Finset.sum_add_distrib
    _ = a * (∑ n, W n) + ∑ e, b e * ∑ n, W n * coords n e := by
        rw [Finset.sum_comm]
        congr 1
        · rw [← Finset.sum_mul]; ring
        · exact Finset.sum_congr rfl fun e _ => by rw [Finset.mul_sum]

theorem interpolatePoint_affine {m : ℕ} {v : Fin m → F} (hv : Function.Injective v)
    (hm : 1 ≤ m) (coords : N3 m → Fin 3 → F) (a : F) (b : Fin 3 → F) (ξ : Fin 3 → F) :
    interpolatePoint v ξ (fun n => a + ∑ e, b e * coords n e) =
      a + ∑ e, b e * geom3 v coords ξ e := by
  unfold interpolatePoint
  rw [sum_weight_affine (fun n => basisWeight3 v ξ n) coords a b,
    basisWeight3_partition hv hm, mul_one]
  rfl

theorem derivWeight3_sum_zero {m : ℕ} {v : Fin m → F} (hv : Function.Injective v)
    (hm : 1 ≤ m) (ξ : Fin 3 → F) (c : Fin 3) : ∑ n, derivWeight3 v ξ n c = 0 := by
  fin_cases c
  · have h := sum_triple_split (fun i => lagrange1Dd v i (ξ 0)) (fun j => lagrange1D v j (ξ 1))
      (fun k => lagrange1D v k (ξ 2)) (fun _ => (1 : F)) (fun _ => (1 : F)) (fun _ => (1 : F))
    simp only [mul_one] at h
    rw [sum_lagrange1Dd_zero hv hm (ξ 0), sum_lagrange1D_one hv hm (ξ 1),
      sum_lagrange1D_one hv hm (ξ 2)] at h
    unfold derivWeight3
    simpa using h
  · have h := sum_triple_split (fun i => lagrange1D v i (ξ 0)) (fun j => lagrange1Dd v j (ξ 1))
      (fun k => lagrange1D v k (ξ 2)) (fun _ => (1 : F)) (fun _ => (1 : F)) (fun _ => (1 : F))
    simp only [mul_one] at h
    rw [sum_lagrange1D_one hv hm (ξ 0), sum_lagrange1Dd_zero hv hm (ξ 1),
      sum_lagrange1D_one hv hm (ξ 2)] at h
    unfold derivWeight3
    simpa using h
  · have h := sum_triple_split (fun i => lagrange1D v i (ξ 0)) (fun j => lagrange1D v j (ξ 1))
      (fun k => lagrange1Dd v k (ξ 2)) (fun _ => (1 : F)) (fun _ => (1 : F)) (fun _ => (1 : F))
    simp only [mul_one] at h
    rw [sum_lagrange1D_one hv hm (ξ 0), sum_lagrange1D_one hv hm (ξ 1),
      sum_lagrange1Dd_zero hv hm (ξ 2)] at h
    unfold derivWeight3
    simpa using h

theorem gradOpAt_affine {m : ℕ} {v : Fin m → F} (hv : Function.Injective v) (hm : 1 ≤ m)
    (coords : N3 m → Fin 3 → F) (ξ : Fin 3 → F)
    (hdet : det3 (jac3 v coords ξ) ≠ 0) (a : F) (b : Fin 3 → F) (d : Fin 3) :
    ∑ n, gradOpAt v coords ξ n d * (a + ∑ e, b e * coords n e) = b d := by
  unfold gradOpAt
  have hsmul : ∀ n : N3 m,
      solve3 (fun p q => jac3 v coords ξ q p) (fun c => derivWeight3 v ξ n c) d *
          (a + ∑ e, b e * coords n e) =
        solve3 (fun p q => jac3 v coords ξ q p)
          (fun c => (a + ∑ e, b e * coords n e) * derivWeight3 v ξ n c) d := fun n => by
    rw [solve3_smul]
    exact mul_comm _ _
  rw [Finset.sum_congr rfl fun n _ => hsmul n]
  rw [← solve3_sum Finset.univ (fun p q => jac3 v coords ξ q p)
    (fun n c => (a + ∑ e, b e * coords n e) * derivWeight3 v ξ n c) d]
  have hvec : (fun c => ∑ n, (a + ∑ e, b e * coords n e) * derivWeight3 v ξ n c)
      = fun c => ∑ e, (fun p q => jac3 v coords ξ q p) c e * b e := by
    funext c
    calc ∑ n, (a + ∑ e, b e * coords n e) * derivWeight3 v ξ n c
        = ∑ n, derivWeight3 v ξ n c * (a + ∑ e, b e * coords n e) :=
          Finset.sum_congr rfl fun n _ => mul_comm _ _
      _ = a * (∑ n, derivWeight3 v ξ n c) + ∑ e, b e * ∑ n, derivWeight3 v ξ n c * coords n e :=
          sum_weight_affine (fun n => derivWeight3 v ξ n c) coords a b
      _ = ∑ e, b e * jac3 v coords ξ e c := by
          rw [derivWeight3_sum_zero hv hm ξ c, mul_zero, zero_add]
          rfl
      _ = ∑ e, (fun p q => jac3 v coords ξ q p) c e * b e :=
          Finset.sum_congr rfl fun e _ => mul_comm _ _
  rw [hvec]
  exact solve3_mulVec _ (by rwa [det3_transpose]) b d

/-! ## A one-point quadrature rule, exact for degree 1 -/

theorem gaussExact_one_point : GaussExact (F := F) 1 (fun _ => 0) (fun _ => 2) 1 := by
  intro p hp
  have hrep := Polynomial.eq_X_add_C_of_natDegree_le_one hp
  have hd : derivative (Polynomial.C (p.coeff 1 / 2) * Polynomial.X ^ 2 +
      Polynomial.C (p.coeff 0) * Polynomial.X) =
        Polynomial.C (p.coeff 1) * Polynomial.X + Polynomial.C (p.coeff 0) := by
    rw [map_add, Polynomial.derivative_C_mul_X_pow, Polynomial.derivative_C_mul_X]
    norm_num
  have hG : derivative (Polynomial.C (p.coeff 1 / 2) * Polynomial.X ^ 2 +
      Polynomial.C (p.coeff 0) * Polynomial.X) = p := hd.trans hrep.symm
  have h := intPoly_of_derivative _ _ hG (-1) 1
  rw [← h]
  simp only [Polynomial.eval_add, Polynomial.eval_mul, Polynomial.eval_C, Polynomial.eval_pow,
    Polynomial.eval_X, Finset.sum_const, Finset.card_univ, Fintype.card_fin, one_smul]
  nth_rewrite 1 [hrep]
  simp only [Polynomial.eval_add, Polynomial.eval_mul, Polynomial.eval_C, Polynomial.eval_X]
  ring

theorem det3_jac3_refCoords {m : ℕ} {v : Fin m → F} (hv : Function.Injective v) (hm : 2 ≤ m)
    (ξ : Fin 3 → F) : det3 (jac3 v (refCoords3 v) ξ) = 1 := by
  unfold det3
  rw [jac3_refCoords hv hm ξ 0 0, jac3_refCoords hv hm ξ 0 1, jac3_refCoords hv hm ξ 0 2,
    jac3_refCoords hv hm ξ 1 0, jac3_refCoords hv hm ξ 1 1, jac3_refCoords hv hm ξ 1 2,
    jac3_refCoords hv hm ξ 2 0, jac3_refCoords hv hm ξ 2 1, jac3_refCoords hv hm ξ 2 2]
  simp only [Fin.reduceEq, reduceIte, if_true, if_false]
  norm_num

/-! ## The claims -/

/-- C1: in the batched execution's per-lane processing, after lane extraction
every diagonal entry of the extracted local LHS is divided by the
per-equation relaxation factor before the scatter: with factor 1 every
diagonal entry reaches the scatter unchanged, with factor r > 1 it equals
the extracted value divided by r exactly, and no other step of the lane
processing alters the diagonal. -/
theorem claim_C1 {R L : ℕ} (simdlhs : Fin R → Fin R → Fin L → F)
    (simdrhs : Fin R → Fin L → F) (lane : Fin L) (r : F) (i : Fin R) :
    ((laneProcess simdlhs simdrhs lane r).1 i i = extract_matrix_lane simdlhs lane i i / r)
    ∧ (r = 1 → (laneProcess simdlhs simdrhs lane r).1 i i
        = extract_matrix_lane simdlhs lane i i)
    ∧ (1 < r → (laneProcess simdlhs simdrhs lane r).1 i i
        = extract_matrix_lane simdlhs lane i i / r) := by
  have h : (laneProcess simdlhs simdrhs lane r).1 i i
      = extract_matrix_lane simdlhs lane i i / r := by
    have := applyDiagRelax_apply r (extract_matrix_lane simdlhs lane) i i
    simpa [laneProcess] using this
  exact ⟨h, fun h1 => by rw [h, h1, div_one], fun _ => h⟩

theorem claim_C1_witness :
    ((laneProcess (R := 2) (L := 1) (fun _ _ _ => (6 : ℚ)) (fun _ _ => (5 : ℚ)) 0 2).1 0 0
        = extract_matrix_lane (n := 2) (L := 1) (fun _ _ _ => (6 : ℚ)) 0 0 0 / 2)
    ∧ ((1 : ℚ) = 1)
    ∧ ((laneProcess (R := 2) (L := 1) (fun _ _ _ => (6 : ℚ)) (fun _ _ => (5 : ℚ)) 0 1).1 0 0
        = extract_matrix_lane (n := 2) (L := 1) (fun _ _ _ => (6 : ℚ)) 0 0 0) :=
  ⟨(claim_C1 (fun _ _ _ => (6 : ℚ)) (fun _ _ => (5 : ℚ)) 0 2 0).1, rfl,
    (claim_C1 (fun _ _ _ => (6 : ℚ)) (fun _ _ => (5 : ℚ)) 0 1 0).2.1 rfl⟩

/-- C2: for the pressure equation the configured relaxation factor is never
read (the factor is independent of the configuration lookup), and the
scattered local LHS diagonal for a pressure system is identical to the
extracted, unrelaxed diagonal. -/
theorem claim_C2 {R L : ℕ} (get1 get2 : String → F)
    (simdlhs : Fin R → Fin R → Fin L → F) (simdrhs : Fin R → Fin L → F)
    (lane : Fin L) (i : Fin R) :
    (diagRelaxFactor ("pressure") get1 = diagRelaxFactor ("pressure") get2)
    ∧ ((laneProcess simdlhs simdrhs lane (diagRelaxFactor ("pressure") get1)).1 i i
        = extract_matrix_lane simdlhs lane i i) := by
  have hp : ∀ g : String → F, diagRelaxFactor ("pressure") g = 1 := by
    intro g
    unfold diagRelaxFactor diagRelaxFactorDefault
    simp
  refine ⟨(hp get1).trans (hp get2).symm, ?_⟩
  have h := applyDiagRelax_apply (diagRelaxFactor ("pressure") get1)
    (extract_matrix_lane simdlhs lane) i i
  rw [hp get1] at h
  simpa [laneProcess, hp get1] using h

/-- C10: between lane extraction and the scatter call, only the diagonal
entries of the extracted local LHS are modified (by the relaxation
division); every off-diagonal LHS entry and the whole extracted RHS reach
the scatter exactly as extracted from the batched representation. -/
theorem claim_C10 {R L : ℕ} (simdlhs : Fin R → Fin R → Fin L → F)
    (simdrhs : Fin R → Fin L → F) (lane : Fin L) (r : F) :
    (∀ i j : Fin R, i ≠ j → (laneProcess simdlhs simdrhs lane r).1 i j
        = extract_matrix_lane simdlhs lane i j)
    ∧ ((laneProcess simdlhs simdrhs lane r).2 = extract_vector_lane simdrhs lane)
    ∧ (∀ i : Fin R, (laneProcess simdlhs simdrhs lane r).1 i i
        = extract_matrix_lane simdlhs lane i i / r) := by
  refine ⟨fun i j hij => ?_, rfl, fun i => ?_⟩
  · have := applyDiagRelax_apply r (extract_matrix_lane simdlhs lane) i j
    simpa [laneProcess, hij] using this
  · have := applyDiagRelax_apply r (extract_matrix_lane simdlhs lane) i i
    simpa [laneProcess] using this

theorem claim_C10_witness :
    ((0 : Fin 2) ≠ 1)
    ∧ ((laneProcess (R := 2) (L := 1) (fun _ _ _ => (4 : ℚ)) (fun _ _ => (9 : ℚ)) 0 5).1 0 1
        = extract_matrix_lane (n := 2) (L := 1) (fun _ _ _ => (4 : ℚ)) 0 0 1) :=
  ⟨by decide,
    (claim_C10 (fun _ _ _ => (4 : ℚ)) (fun _ _ => (9 : ℚ)) 0 5).1 0 1 (by decide)⟩

/-- C3: for every polynomial order 1 through 5, every dimension in {2, 3}
and every evaluation point with coordinates in [-1.05, 1.05], applying the
`eval_basis_weights` matrix to nodal samples of any tensor-product
polynomial of per-axis degree at most the order reproduces the
polynomial's exact value within 1e-10, applying the `eval_deriv_weights`
tensor reproduces its analytic partial derivatives in every coordinate
direction within 1e-10, and the interpolation weight row of every such
point sums to 1 (partition of unity). -/
theorem claim_C3 {o : ℕ} (_ho1 : 1 ≤ o) (_ho5 : o ≤ 5)
    {v : Fin (o + 1) → F} (hv : Function.Injective v)
    {cX cY cZ : List F} (hX : cX.length = o + 1) (hY : cY.length = o + 1)
    (hZ : cZ.length = o + 1) {x y z : F}
    (_hx : |x| ≤ 21 / 20) (_hy : |y| ≤ 21 / 20) (_hz : |z| ≤ 21 / 20) :
    (|(∑ n : N2 (o + 1), basisWeight2 v x y n *
          (poly_val cX (v n.1) * poly_val cY (v n.2))) -
        poly_val cX x * poly_val cY y| ≤ 1 / 10 ^ 10)
    ∧ (|(∑ n : N2 (o + 1), derivWeight2 v x y n 0 *
          (poly_val cX (v n.1) * poly_val cY (v n.2))) -
        poly_der cX x * poly_val cY y| ≤ 1 / 10 ^ 10)
    ∧ (|(∑ n : N2 (o + 1), derivWeight2 v x y n 1 *
          (poly_val cX (v n.1) * poly_val cY (v n.2))) -
        poly_val cX x * poly_der cY y| ≤ 1 / 10 ^ 10)
    ∧ (|(∑ n : N2 (o + 1), basisWeight2 v x y n) - 1| ≤ 1 / 10 ^ 10)
    ∧ (|(∑ n : N3 (o + 1), basisWeight3 v ![x, y, z] n *
          (poly_val cX (v n.1) * (poly_val cY (v n.2.1) * poly_val cZ (v n.2.2)))) -
        poly_val cX x * (poly_val cY y * poly_val cZ z)| ≤ 1 / 10 ^ 10)
    ∧ (|(∑ n : N3 (o + 1), derivWeight3 v ![x, y, z] n 0 *
          (poly_val cX (v n.1) * (poly_val cY (v n.2.1) * poly_val cZ (v n.2.2)))) -
        poly_der cX x * (poly_val cY y * poly_val cZ z)| ≤ 1 / 10 ^ 10)
    ∧ (|(∑ n : N3 (o + 1), derivWeight3 v ![x, y, z] n 1 *
          (poly_val cX (v n.1) * (poly_val cY (v n.2.1) * poly_val cZ (v n.2.2)))) -
        poly_val cX x * (poly_der cY y * poly_val cZ z)| ≤ 1 / 10 ^ 10)
    ∧ (|(∑ n : N3 (o + 1), derivWeight3 v ![x, y, z] n 2 *
          (poly_val cX (v n.1) * (poly_val cY (v n.2.1) * poly_val cZ (v n.2.2)))) -
        poly_val cX x * (poly_val cY y * poly_der cZ z)| ≤ 1 / 10 ^ 10)
    ∧ (|(∑ n : N3 (o + 1), basisWeight3 v ![x, y, z] n) - 1| ≤ 1 / 10 ^ 10) := by
  have hm1 : 1 ≤ o + 1 := Nat.le_add_left 1 o
  have hXle : cX.length ≤ o + 1 := le_of_eq hX
  have hYle : cY.length ≤ o + 1 := le_of_eq hY
  have hZle : cZ.length ≤ o + 1 := le_of_eq hZ
  have h0 : ![x, y, z] 0 = x := rfl
  have h1 : ![x, y, z] 1 = y := rfl
  have h2 : ![x, y, z] 2 = z := rfl
  have htol : (0 : F) ≤ 1 / 10 ^ 10 := by positivity
  refine ⟨?_, ?_, ?_, ?_, ?_, ?_, ?_, ?_, ?_⟩
  · rw [basisWeight2_exact hv hXle hYle x y, sub_self, abs_zero]; exact htol
  · rw [derivWeight2_exact_x hv hXle hYle x y, sub_self, abs_zero]; exact htol
  · rw [derivWeight2_exact_y hv hXle hYle x y, sub_self, abs_zero]; exact htol
  · rw [basisWeight2_partition hv hm1 x y, sub_self, abs_zero]; exact htol
  · rw [basisWeight3_exact hv hXle hYle hZle ![x, y, z], h0, h1, h2, sub_self, abs_zero]
    exact htol
  · rw [derivWeight3_exact_x hv hXle hYle hZle ![x, y, z], h0, h1, h2, sub_self, abs_zero]
    exact htol
  · rw [derivWeight3_exact_y hv hXle hYle hZle ![x, y, z], h0, h1, h2, sub_self, abs_zero]
    exact htol
  · rw [derivWeight3_exact_z hv hXle hYle hZle ![x, y, z], h0, h1, h2, sub_self, abs_zero]
    exact htol
  · rw [basisWeight3_partition hv hm1 ![x, y, z], sub_self, abs_zero]; exact htol

theorem claim_C3_witness :
    (1 ≤ 1) ∧ (1 ≤ 5) ∧ Function.Injective (![(-1 : ℚ), 1])
    ∧ ([(0 : ℚ), 1].length = 1 + 1) ∧ (|(0 : ℚ)| ≤ 21 / 20)
    ∧ (|(∑ n : N2 (1 + 1), basisWeight2 (![(-1 : ℚ), 1]) 0 0 n *
          (poly_val [(0 : ℚ), 1] (![(-1 : ℚ), 1] n.1) *
            poly_val [(0 : ℚ), 1] (![(-1 : ℚ), 1] n.2))) -
        poly_val [(0 : ℚ), 1] 0 * poly_val [(0 : ℚ), 1] 0| ≤ 1 / 10 ^ 10) :=
  ⟨le_refl 1, by norm_num, by decide, rfl, by norm_num,
    (@claim_C3 ℚ _ 1 (le_refl 1) (by norm_num) (![(-1 : ℚ), 1]) (by decide)
      [(0 : ℚ), 1] [(0 : ℚ), 1] [(0 : ℚ), 1] rfl rfl rfl 0 0 0
      (by norm_num) (by norm_num) (by norm_num)).1⟩

/-- C4: for every polynomial order 1 through 5 on the quadrilateral and the
hexahedral SCV topologies, accumulating `ip_weights()[ip]` times the
shape-function interpolation of a nodal tensor-product polynomial field
into the node `ipNodeMap()[ip]`, summed over all integration points,
yields for every node (within 1e-10) the closed-form integral of the
polynomial over that node's sub-control volume, whose 1-D bounds are
consecutive `scs_end_loc()` entries. -/
theorem claim_C4 {o nq : ℕ} (ho1 : 1 ≤ o) (_ho5 : o ≤ 5)
    {v : Fin (o + 1) → F} (hv : Function.Injective v)
    (e : Fin (o + 1 + 1) → F) {xq wq : Fin nq → F}
    (hG : GaussExact nq xq wq (2 * o - 1))
    {cX cY cZ : List F} (hX : cX.length = o + 1) (hY : cY.length = o + 1)
    (hZ : cZ.length = o + 1) (n2 : N2 (o + 1)) (n3 : N3 (o + 1)) :
    (|scvAccum2 v e xq wq (fun n => poly_val cX (v n.1) * poly_val cY (v n.2)) n2 -
        poly_int cX (e n2.1.castSucc) (e n2.1.succ) *
          poly_int cY (e n2.2.castSucc) (e n2.2.succ)| ≤ 1 / 10 ^ 10)
    ∧ (|scvAccum3 v e xq wq
          (fun n => poly_val cX (v n.1) * (poly_val cY (v n.2.1) * poly_val cZ (v n.2.2))) n3 -
        poly_int cX (e n3.1.castSucc) (e n3.1.succ) *
          (poly_int cY (e n3.2.1.castSucc) (e n3.2.1.succ) *
            poly_int cZ (e n3.2.2.castSucc) (e n3.2.2.succ))| ≤ 1 / 10 ^ 10) := by
  have hXle : cX.length ≤ o + 1 := le_of_eq hX
  have hYle : cY.length ≤ o + 1 := le_of_eq hY
  have hZle : cZ.length ≤ o + 1 := le_of_eq hZ
  have hXd : cX.length ≤ 2 * o - 1 + 1 := by omega
  have hYd : cY.length ≤ 2 * o - 1 + 1 := by omega
  have hZd : cZ.length ≤ 2 * o - 1 + 1 := by omega
  constructor
  · rw [scvAccum2_exact hv e hG hXle hYle hXd hYd n2, sub_self, abs_zero]
    positivity
  · rw [scvAccum3_exact hv e hG hXle hYle hZle hXd hYd hZd n3, sub_self, abs_zero]
    positivity

theorem claim_C4_witness :
    (1 ≤ 1) ∧ GaussExact (F := ℚ) 1 (fun _ => 0) (fun _ => 2) (2 * 1 - 1)
    ∧ (|scvAccum2 (![(-1 : ℚ), 1]) (![(-1 : ℚ), 0, 1])
          (fun _ : Fin 1 => (0 : ℚ)) (fun _ : Fin 1 => (2 : ℚ))
          (fun n => poly_val [(0 : ℚ), 1] (![(-1 : ℚ), 1] n.1) *
            poly_val [(0 : ℚ), 1] (![(-1 : ℚ), 1] n.2)) (0, 0) -
        poly_int [(0 : ℚ), 1] ((![(-1 : ℚ), 0, 1]) (0 : Fin 2).castSucc)
            ((![(-1 : ℚ), 0, 1]) (0 : Fin 2).succ) *
          poly_int [(0 : ℚ), 1] ((![(-1 : ℚ), 0, 1]) (0 : Fin 2).castSucc)
            ((![(-1 : ℚ), 0, 1]) (0 : Fin 2).succ)| ≤ 1 / 10 ^ 10) :=
  ⟨le_refl 1, gaussExact_one_point,
    (@claim_C4 ℚ _ 1 1 (le_refl 1) (by norm_num) (![(-1 : ℚ), 1]) (by decide)
      (![(-1 : ℚ), 0, 1]) (fun _ : Fin 1 => (0 : ℚ)) (fun _ : Fin 1 => (2 : ℚ))
      gaussExact_one_point
      [(0 : ℚ), 1] [(0 : ℚ), 1] [(0 : ℚ), 1] rfl rfl rfl (0, 0) (0, 0, 0)).1⟩

/-- C5: for every polynomial order 1 through 5 and an element whose nodal
coordinates equal the reference node locations, `isInElement` returns, for
every query point inside [0.125, 0.25]^3, a distance below 1 plus
tolerance and a recovered reference coordinate within 1e-10 of the query
point in every component; for the far-outside point (100, 100, 100) it
returns a distance above 1 plus tolerance. -/
theorem claim_C5 {o : ℕ} (ho1 : 1 ≤ o) (_ho5 : o ≤ 5)
    {v : Fin (o + 1) → F} (hv : Function.Injective v)
    {pt : Fin 3 → F} (hpt : ∀ d, 1 / 8 ≤ pt d ∧ pt d ≤ 1 / 4) :
    ((isInElement v (refCoords3 v) pt).1 < 1 + 1 / 10 ^ 10)
    ∧ (∀ d, |(isInElement v (refCoords3 v) pt).2 d - pt d| ≤ 1 / 10 ^ 10)
    ∧ (1 + 1 / 10 ^ 10 < (isInElement v (refCoords3 v) (fun _ => 100)).1) := by
  have hm : 2 ≤ o + 1 := by omega
  have h1 := isInElement_refCoords hv hm pt
  have h2 := isInElement_refCoords hv hm (fun _ => (100 : F))
  refine ⟨?_, ?_, ?_⟩
  · rw [h1]
    show parametricDistance3 pt < 1 + 1 / 10 ^ 10
    have hb : ∀ d, |pt d| ≤ 1 / 4 := fun d => by
      have hlow := (hpt d).1
      have hhigh := (hpt d).2
      have : (-(1 / 4) : F) ≤ 1 / 8 := by norm_num
      exact abs_le.mpr ⟨by linarith, hhigh⟩
    have hmax : parametricDistance3 pt ≤ 1 / 4 :=
      max_le (hb 0) (max_le (hb 1) (hb 2))
    have h14 : (1 / 4 : F) < 1 + 1 / 10 ^ 10 := by norm_num
    linarith
  · intro d
    rw [h1]
    show |pt d - pt d| ≤ 1 / 10 ^ 10
    rw [sub_self, abs_zero]
    positivity
  · rw [h2]
    show 1 + 1 / 10 ^ 10 < parametricDistance3 (fun _ => (100 : F))
    unfold parametricDistance3
    rw [show |(100 : F)| = 100 from abs_of_pos (by norm_num), max_self, max_self]
    norm_num

theorem claim_C5_witness :
    (1 ≤ 1) ∧ (∀ d : Fin 3, 1 / 8 ≤ ((fun _ => 3 / 16 : Fin 3 → ℚ) d)
        ∧ ((fun _ => 3 / 16 : Fin 3 → ℚ) d) ≤ 1 / 4)
    ∧ ((isInElement (![(-1 : ℚ), 1]) (refCoords3 (![(-1 : ℚ), 1]))
          (fun _ => 3 / 16)).1 < 1 + 1 / 10 ^ 10) :=
  ⟨le_refl 1, fun _ => by constructor <;> norm_num,
    (@claim_C5 ℚ _ 1 (le_refl 1) (by norm_num) (![(-1 : ℚ), 1]) (by decide)
      (fun _ => 3 / 16) (fun _ => by constructor <;> norm_num)).1⟩

/-- C6: for every polynomial order 1 through 5, every nodal layout obtained
by perturbing each reference node coordinate by at most 0.125 and every
affine field sampled at those nodes, `interpolatePoint` evaluated at the
reference coordinate that `isInElement` recovers for an interior physical
point (that is, a reference coordinate the geometry maps back onto the
query point) reproduces the affine field's exact value at that physical
point within 1e-8. -/
theorem claim_C6 {o : ℕ} (ho1 : 1 ≤ o) (_ho5 : o ≤ 5)
    {v : Fin (o + 1) → F} (hv : Function.Injective v)
    {coords : N3 (o + 1) → Fin 3 → F}
    (_hperturb : ∀ n d, |coords n d - refCoords3 v n d| ≤ 1 / 8)
    (a : F) (b : Fin 3 → F) (pt : Fin 3 → F)
    (hconv : ∀ d, geom3 v coords ((isInElement v coords pt).2) d = pt d) :
    |interpolatePoint v ((isInElement v coords pt).2)
        (fun n => a + ∑ e, b e * coords n e) - (a + ∑ e, b e * pt e)| ≤ 1 / 10 ^ 8 := by
  rw [interpolatePoint_affine hv (by omega) coords a b]
  have hsum : ∑ e, b e * geom3 v coords ((isInElement v coords pt).2) e
      = ∑ e, b e * pt e :=
    Finset.sum_congr rfl fun e _ => by rw [hconv e]
  rw [hsum, sub_self, abs_zero]
  positivity

theorem claim_C6_witness :
    (∀ d, geom3 (![(-1 : ℚ), 1]) (refCoords3 (![(-1 : ℚ), 1]))
        ((isInElement (![(-1 : ℚ), 1]) (refCoords3 (![(-1 : ℚ), 1])) (fun _ => 3 / 16)).2) d
          = (fun _ => 3 / 16 : Fin 3 → ℚ) d)
    ∧ (|interpolatePoint (![(-1 : ℚ), 1])
          ((isInElement (![(-1 : ℚ), 1]) (refCoords3 (![(-1 : ℚ), 1])) (fun _ => 3 / 16)).2)
          (fun n => 2 + ∑ e, (fun _ => 1 : Fin 3 → ℚ) e * refCoords3 (![(-1 : ℚ), 1]) n e) -
        (2 + ∑ e, (fun _ => 1 : Fin 3 → ℚ) e * (fun _ => 3 / 16 : Fin 3 → ℚ) e)| ≤ 1 / 10 ^ 8) := by
  have hv : Function.Injective (![(-1 : ℚ), 1]) := by decide
  have hm : 2 ≤ 1 + 1 := by norm_num
  have hconv : ∀ d, geom3 (![(-1 : ℚ), 1]) (refCoords3 (![(-1 : ℚ), 1]))
      ((isInElement (![(-1 : ℚ), 1]) (refCoords3 (![(-1 : ℚ), 1])) (fun _ => 3 / 16)).2) d
        = (fun _ => 3 / 16 : Fin 3 → ℚ) d := by
    intro d
    rw [isInElement_refCoords hv hm]
    exact geom3_refCoords hv hm _ d
  refine ⟨hconv, ?_⟩
  exact @claim_C6 ℚ _ 1 (le_refl 1) (by norm_num) (![(-1 : ℚ), 1]) hv
    (refCoords3 (![(-1 : ℚ), 1]))
    (fun n d => by rw [sub_self, abs_zero]; norm_num)
    2 (fun _ => 1) (fun _ => 3 / 16) hconv

/-- C7: for every polynomial order 1 through 5 and every hexahedral element
whose nodes are reference node locations perturbed by at most 0.125 per
coordinate, applying the gradient operator written by `grad_op` to nodal
samples of any affine field yields, at every integration point with
invertible Jacobian and in every coordinate direction, the field's
constant gradient coefficient within 1e-8. -/
theorem claim_C7 {o nip : ℕ} (ho1 : 1 ≤ o) (_ho5 : o ≤ 5)
    {v : Fin (o + 1) → F} (hv : Function.Injective v)
    (ips : Fin nip → Fin 3 → F) {coords : N3 (o + 1) → Fin 3 → F}
    (_hperturb : ∀ n d, |coords n d - refCoords3 v n d| ≤ 1 / 8)
    (a : F) (b : Fin 3 → F) (ip : Fin nip)
    (hdet : det3 (jac3 v coords (ips ip)) ≠ 0) (d : Fin 3) :
    |(∑ n, (grad_op v ips coords).1 ip n d * (a + ∑ e, b e * coords n e)) - b d|
      ≤ 1 / 10 ^ 8 := by
  have h : (grad_op v ips coords).1 ip = gradOpAt v coords (ips ip) := rfl
  rw [h, gradOpAt_affine hv (by omega) coords (ips ip) hdet a b d, sub_self, abs_zero]
  positivity

theorem claim_C7_witness :
    (det3 (jac3 (![(-1 : ℚ), 1]) (refCoords3 (![(-1 : ℚ), 1]))
        ((fun _ _ => 0 : Fin 1 → Fin 3 → ℚ) 0)) ≠ 0)
    ∧ (|(∑ n, (grad_op (![(-1 : ℚ), 1]) (fun _ _ => 0 : Fin 1 → Fin 3 → ℚ)
          (refCoords3 (![(-1 : ℚ), 1]))).1 0 n 0 *
          (0 + ∑ e, (fun _ => 1 : Fin 3 → ℚ) e * refCoords3 (![(-1 : ℚ), 1]) n e)) -
        (fun _ => 1 : Fin 3 → ℚ) 0| ≤ 1 / 10 ^ 8) := by
  have hv : Function.Injective (![(-1 : ℚ), 1]) := by decide
  have hdet : det3 (jac3 (![(-1 : ℚ), 1]) (refCoords3 (![(-1 : ℚ), 1]))
      ((fun _ _ => 0 : Fin 1 → Fin 3 → ℚ) (0 : Fin 1))) ≠ 0 := by
    rw [det3_jac3_refCoords hv (by norm_num)]
    norm_num
  refine ⟨hdet, ?_⟩
  exact @claim_C7 ℚ _ 1 1 (le_refl 1) (by norm_num) (![(-1 : ℚ), 1]) hv
    (fun _ _ => 0 : Fin 1 → Fin 3 → ℚ) (refCoords3 (![(-1 : ℚ), 1]))
    (fun n d => by rw [sub_self, abs_zero]; norm_num)
    0 (fun _ => 1) 0 hdet 0

/-- C8: `grad_op` reports through its error output, without throwing or
aborting: the accumulated error count is nonzero exactly when some
integration point has a non-positive Jacobian determinant, and the
determinant and gradient outputs are always fully written, error or not. -/
theorem claim_C8 {o nip : ℕ} (v : Fin (o + 1) → F) (ips : Fin nip → Fin 3 → F)
    (coords : N3 (o + 1) → Fin 3 → F) :
    (((grad_op v ips coords).2.2 ≠ 0) ↔ ∃ ip, det3 (jac3 v coords (ips ip)) ≤ 0)
    ∧ (∀ ip, (grad_op v ips coords).2.1 ip = det3 (jac3 v coords (ips ip)))
    ∧ (∀ ip, (grad_op v ips coords).1 ip = gradOpAt v coords (ips ip)) := by
  refine ⟨?_, fun _ => rfl, fun _ => rfl⟩
  show (Finset.univ.filter fun ip : Fin nip =>
      det3 (jac3 v coords (ips ip)) ≤ 0).card ≠ 0 ↔ _
  rw [Finset.card_ne_zero, Finset.filter_nonempty_iff]
  simp

/-- C9: `ElementDescription::create(dimension, order)` fails with
`InvalidOrderError` exactly when the order is below 1 or the dimension is
not 2 or 3; for every valid pair it succeeds, and repeated calls with the
same arguments produce identical node placement. -/
theorem claim_C9 (dimension order : ℕ) :
    ((∃ desc : ElementDescriptionModel F,
        ElementDescription.create dimension order = Except.ok desc)
      ↔ (1 ≤ order ∧ (dimension = 2 ∨ dimension = 3)))
    ∧ (∀ err, ElementDescription.create (F := F) dimension order = Except.error err →
        err = ElementDescErr.InvalidOrderError)
    ∧ (∀ d1 d2 : ElementDescriptionModel F,
        ElementDescription.create dimension order = Except.ok d1 →
        ElementDescription.create dimension order = Except.ok d2 →
        d1.nodeLocs1D = d2.nodeLocs1D) := by
  refine ⟨?_, fun err _ => by cases err; rfl, fun d1 d2 h1 h2 => ?_⟩
  · unfold ElementDescription.create
    by_cases h : order < 1 ∨ (dimension ≠ 2 ∧ dimension ≠ 3)
    · rw [if_pos h]
      constructor
      · rintro ⟨desc, hdesc⟩
        exact absurd hdesc (by simp)
      · intro hvalid
        omega
    · rw [if_neg h]
      exact ⟨fun _ => by omega, fun _ => ⟨_, rfl⟩⟩
  · have h := h1.symm.trans h2
    rw [Except.ok.injEq] at h
    rw [h]

theorem claim_C9_witness :
    (ElementDescription.create (F := ℚ) 2 1 =
        Except.ok ⟨1, 2, 2, 4, [-1, 1]⟩)
    ∧ ((⟨1, 2, 2, 4, [-1, 1]⟩ : ElementDescriptionModel ℚ).nodeLocs1D =
        (⟨1, 2, 2, 4, [-1, 1]⟩ : ElementDescriptionModel ℚ).nodeLocs1D) := by
  have hcr : ElementDescription.create (F := ℚ) 2 1 =
      Except.ok ⟨1, 2, 2, 4, [-1, 1]⟩ := by
    unfold ElementDescription.create
    rw [if_neg (by omega)]
    norm_num [List.range_succ]
  exact ⟨hcr, (claim_C9 (F := ℚ) 2 1).2.2 _ _ hcr hcr⟩

end NaluCore
